import Mathlib

/-!
Verification of the maze generator / raycaster of `src/maze.js`.

Modelling conventions:
* JS 2-D arrays indexed as `a[y][x]` are modelled either as total functions on
  `ℤ` (the generator's cell lattice, where only in-bounds indices are ever
  read or written) or as `List (List ℕ)` (the tile grid, whose lengths the
  code inspects).
* JS numbers in the raycaster and the movement integrator are modelled as
  exact rationals; `Math.cos`/`Math.sin` values enter those functions as
  parameters.  The projector's fisheye formulas are modelled over `ℝ` with
  `Real.cos`.
* `Math.random()` is modelled as an oracle `rng : ℕ → ℕ` indexed by the
  number of draws made so far; `Math.floor(Math.random() * n)`, a value in
  `[0, n)`, becomes `rng k % n`.
* The float `Infinity` returned by `castRay` is modelled as `none`.
* Unbounded loops (`carve`'s recursion, the DDA `while`) take an explicit
  fuel argument; theorems establish the fuel that suffices.
-/

set_option maxHeartbeats 1000000

namespace Maze

/-- Wall flags of one lattice cell (`true` = wall present), from the
`walls` object literal in `generateMaze` (src/maze.js line 39). -/
structure Walls where
  north : Bool
  south : Bool
  west : Bool
  east : Bool
deriving DecidableEq

/-- One maze cell: the `visited` flag used during generation plus the four
wall flags (src/maze.js lines 37-40). -/
structure Cell where
  visited : Bool
  walls : Walls
deriving DecidableEq

/-- The cell lattice `maze[y][x]`, modelled as a total function on integer
coordinates; the generator only ever reads or writes indices with
`0 ≤ x < width`, `0 ≤ y < height`. -/
def CellFun := ℤ → ℤ → Cell

/-- The four candidate carving directions (src/maze.js line 52). -/
inductive Dir
  | north
  | south
  | west
  | east
deriving DecidableEq

/-- Horizontal neighbour offset of a direction (src/maze.js lines 56-59). -/
def Dir.dx : Dir → ℤ
  | .west => -1
  | .east => 1
  | _ => 0

/-- Vertical neighbour offset of a direction (src/maze.js lines 56-57). -/
def Dir.dy : Dir → ℤ
  | .north => -1
  | .south => 1
  | _ => 0

/-- The wall flag cleared on the neighbour's side (src/maze.js lines 62-65). -/
def Dir.opposite : Dir → Dir
  | .north => .south
  | .south => .north
  | .west => .east
  | .east => .west

/-- Read the wall flag of a given direction. -/
def Walls.get (ws : Walls) : Dir → Bool
  | .north => ws.north
  | .south => ws.south
  | .west => ws.west
  | .east => ws.east

/-- Clear (set to `false`) the wall flag of a given direction
(src/maze.js lines 61-65). -/
def Walls.clear (ws : Walls) : Dir → Walls
  | .north => { ws with north := false }
  | .south => { ws with south := false }
  | .west => { ws with west := false }
  | .east => { ws with east := false }

/-- Generator state: the lattice under construction plus the number of
`Math.random()` draws consumed so far. -/
structure GenState where
  m : CellFun
  ctr : ℕ

/-- Number of unvisited cells of the `width × height` lattice; the measure
that bounds `carve`'s recursion. -/
def unvisitedCount (width height : ℕ) (m : CellFun) : ℕ :=
  ((Finset.range width ×ˢ Finset.range height).filter
    fun p => (m (p.1 : ℤ) (p.2 : ℤ)).visited = false).card

/-- Functional update of one lattice cell (`maze[y][x] = c`). -/
def setCell (m : CellFun) (x y : ℤ) (c : Cell) : CellFun :=
  fun a b => if a = x ∧ b = y then c else m a b

/-- `maze[y][x].visited = true` (src/maze.js line 51). -/
def markVisited (m : CellFun) (x y : ℤ) : CellFun :=
  setCell m x y { m x y with visited := true }

/-- `maze[y][x].walls[dir] = false` (src/maze.js lines 61-65). -/
def clearWallAt (m : CellFun) (x y : ℤ) (d : Dir) : CellFun :=
  setCell m x y { m x y with walls := (m x y).walls.clear d }

/-- Open the boundary between `(x, y)` and its `d`-neighbour on **both**
sides (src/maze.js lines 61-65). -/
def openBoth (m : CellFun) (x y : ℤ) (d : Dir) : CellFun :=
  clearWallAt (clearWallAt m x y d) (x + d.dx) (y + d.dy) d.opposite

/-- Fisher-Yates swap `[a[3], a[j]] = [a[j], a[3]]` on the 4-element
direction array (src/maze.js line 46, iteration `i = 3`). -/
def swapIdx3 : Dir × Dir × Dir × Dir → ℕ → Dir × Dir × Dir × Dir
  | (a, b, c, d), 0 => (d, b, c, a)
  | (a, b, c, d), 1 => (a, d, c, b)
  | (a, b, c, d), 2 => (a, b, d, c)
  | t, _ => t

/-- Fisher-Yates swap for iteration `i = 2` (src/maze.js line 46). -/
def swapIdx2 : Dir × Dir × Dir × Dir → ℕ → Dir × Dir × Dir × Dir
  | (a, b, c, d), 0 => (c, b, a, d)
  | (a, b, c, d), 1 => (a, c, b, d)
  | t, _ => t

/-- Fisher-Yates swap for iteration `i = 1` (src/maze.js line 46). -/
def swapIdx1 : Dir × Dir × Dir × Dir → ℕ → Dir × Dir × Dir × Dir
  | (a, b, c, d), 0 => (b, a, c, d)
  | t, _ => t

/-- `shuffle(['north', 'south', 'west', 'east'])` (src/maze.js lines 43-49
and 52): three Fisher-Yates steps whose draw `Math.floor(Math.random()*(i+1))`
is modelled as `r % (i+1)`. -/
def shuffledDirs (r1 r2 r3 : ℕ) : Dir × Dir × Dir × Dir :=
  swapIdx1 (swapIdx2 (swapIdx3 (.north, .south, .west, .east) (r1 % 4)) (r2 % 3)) (r3 % 2)

/-- `carve(x, y)` (src/maze.js lines 50-69), with explicit fuel bounding the
recursion depth.  Each invocation consumes three random draws for the
shuffle, then tries the four shuffled directions in order; an in-bounds
unvisited neighbour gets the shared wall cleared on both sides before the
recursive call. -/
def carve (rng : ℕ → ℕ) (width height : ℕ) : ℕ → ℤ → ℤ → GenState → GenState
  | 0, _, _, st => st
  | fuel + 1, x, y, st =>
    let st1 : GenState := ⟨markVisited st.m x y, st.ctr + 3⟩
    let ds := shuffledDirs (rng st.ctr) (rng (st.ctr + 1)) (rng (st.ctr + 2))
    let step : Dir → GenState → GenState := fun d s =>
      let nx := x + d.dx
      let ny := y + d.dy
      if 0 ≤ nx ∧ nx < (width : ℤ) ∧ 0 ≤ ny ∧ ny < (height : ℤ) ∧
          (s.m nx ny).visited = false then
        carve rng width height fuel nx ny ⟨openBoth s.m x y d, s.ctr⟩
      else s
    step ds.2.2.2 (step ds.2.2.1 (step ds.2.1 (step ds.1 st1)))

/-- One direction attempt of `carve`'s loop (src/maze.js lines 53-67), as a
standalone function; `carve` at positive fuel is the composition of four of
these (`carve_succ`). -/
def tryDir (rng : ℕ → ℕ) (width height fuel : ℕ) (x y : ℤ) (d : Dir) (s : GenState) :
    GenState :=
  let nx := x + d.dx
  let ny := y + d.dy
  if 0 ≤ nx ∧ nx < (width : ℤ) ∧ 0 ≤ ny ∧ ny < (height : ℤ) ∧
      (s.m nx ny).visited = false then
    carve rng width height fuel nx ny ⟨openBoth s.m x y d, s.ctr⟩
  else s

/-- A freshly initialised cell: unvisited, all four walls present
(src/maze.js lines 37-40). -/
def initialCell : Cell := ⟨false, ⟨true, true, true, true⟩⟩

/-- The generator's initial state (src/maze.js lines 33-42). -/
def initialState : GenState := ⟨fun _ _ => initialCell, 0⟩

/-- The generator body for valid dimensions: initialise the lattice and
`carve(0, 0)` (src/maze.js lines 33-71).  Fuel `width * height` bounds the
recursion: every recursive call targets an unvisited cell and immediately
marks it visited. -/
def generateMazeCore (width height : ℕ) (rng : ℕ → ℕ) : CellFun :=
  (carve rng width height (width * height) 0 0 initialState).m

/-- `generateMaze(width, height)` (src/maze.js lines 32-72).  For
`width ≤ 0` or `height ≤ 0` the row arrays are empty (or absent), so the
very first statement of `carve(0, 0)` — `maze[0][0].visited = true` — is a
property access on `undefined` and the call throws a `TypeError` before any
lattice is returned; the thrown exception is modelled as `Except.error`. -/
def generateMaze (width height : ℤ) (rng : ℕ → ℕ) : Except String CellFun :=
  if 0 < width ∧ 0 < height then
    .ok (generateMazeCore width.toNat height.toNat rng)
  else
    .error "TypeError: cannot read properties of undefined"

/-- Cell coordinates lying inside the `width × height` lattice. -/
def inB (width height : ℕ) (x y : ℤ) : Prop :=
  0 ≤ x ∧ x < (width : ℤ) ∧ 0 ≤ y ∧ y < (height : ℤ)

/-- Two lattice cells are joined when they are adjacent and the wall flag on
the canonical side of their shared boundary (the east flag of the left
cell, resp. the south flag of the upper cell) is absent. -/
def EdgeStep (width height : ℕ) (m : CellFun) (p q : ℤ × ℤ) : Prop :=
  inB width height p.1 p.2 ∧ inB width height q.1 q.2 ∧
    ((q.1 = p.1 + 1 ∧ q.2 = p.2 ∧ (m p.1 p.2).walls.get .east = false) ∨
     (p.1 = q.1 + 1 ∧ p.2 = q.2 ∧ (m q.1 q.2).walls.get .east = false) ∨
     (q.2 = p.2 + 1 ∧ q.1 = p.1 ∧ (m p.1 p.2).walls.get .south = false) ∨
     (p.2 = q.2 + 1 ∧ p.1 = q.1 ∧ (m q.1 q.2).walls.get .south = false))

/-- Reachability through opened boundaries. -/
def ReachOpen (width height : ℕ) (m : CellFun) (p q : ℤ × ℤ) : Prop :=
  Relation.ReflTransGen (EdgeStep width height m) p q

/-- The open-boundary graph of a lattice state on all integer cells. -/
def mazeGraphZ (width height : ℕ) (m : CellFun) : SimpleGraph (ℤ × ℤ) where
  Adj p q := EdgeStep width height m p q
  symm := by
    intro p q h
    obtain ⟨hp, hq, hc⟩ := h
    refine ⟨hq, hp, ?_⟩
    rcases hc with h | h | h | h
    · exact Or.inr (Or.inl h)
    · exact Or.inl h
    · exact Or.inr (Or.inr (Or.inr h))
    · exact Or.inr (Or.inr (Or.inl h))
  loopless := by
    intro p h
    obtain ⟨_, _, hc⟩ := h
    rcases hc with ⟨h1, _⟩ | ⟨h1, _⟩ | ⟨h1, _⟩ | ⟨h1, _⟩ <;> omega

/-- The open-boundary graph of a lattice on the `Fin width × Fin height`
cell set. -/
def mazeGraph (width height : ℕ) (m : CellFun) : SimpleGraph (Fin width × Fin height) where
  Adj a b := EdgeStep width height m ((a.1 : ℤ), (a.2 : ℤ)) ((b.1 : ℤ), (b.2 : ℤ))
  symm := by
    intro a b h
    exact (mazeGraphZ width height m).symm h
  loopless := by
    intro a h
    exact (mazeGraphZ width height m).loopless _ h

/-- The set of opened horizontal boundaries: pairs `(x, y)` whose east wall
is gone and whose east neighbour is in bounds. -/
def openH (width height : ℕ) (m : CellFun) : Finset (ℕ × ℕ) :=
  (Finset.range width ×ˢ Finset.range height).filter
    fun p => p.1 + 1 < width ∧ (m (p.1 : ℤ) (p.2 : ℤ)).walls.get .east = false

/-- The set of opened vertical boundaries: pairs `(x, y)` whose south wall
is gone and whose south neighbour is in bounds. -/
def openV (width height : ℕ) (m : CellFun) : Finset (ℕ × ℕ) :=
  (Finset.range width ×ˢ Finset.range height).filter
    fun p => p.2 + 1 < height ∧ (m (p.1 : ℤ) (p.2 : ℤ)).walls.get .south = false

/-- The number of opened (removed) wall boundaries of the lattice. -/
def openCount (width height : ℕ) (m : CellFun) : ℕ :=
  (openH width height m).card + (openV width height m).card

/-- Mutual consistency of the wall flags on every shared boundary. -/
def Consistent (width height : ℕ) (m : CellFun) : Prop :=
  ∀ x y : ℤ, inB width height x y →
    (x + 1 < (width : ℤ) → (m x y).walls.get .east = (m (x + 1) y).walls.get .west) ∧
    (y + 1 < (height : ℤ) → (m x y).walls.get .south = (m x (y + 1)).walls.get .north)

/-- All outward-facing walls of the lattice border are present. -/
def BorderIntact (width height : ℕ) (m : CellFun) : Prop :=
  ∀ x y : ℤ, inB width height x y →
    (y = 0 → (m x y).walls.get .north = true) ∧
    (y = (height : ℤ) - 1 → (m x y).walls.get .south = true) ∧
    (x = 0 → (m x y).walls.get .west = true) ∧
    (x = (width : ℤ) - 1 → (m x y).walls.get .east = true)

/-- Full symmetric wall consistency: the flag toward any neighbour matches
the neighbour's flag back. -/
def SymOK (m : CellFun) : Prop :=
  ∀ (a b : ℤ) (d' : Dir),
    (m a b).walls.get d' = (m (a + d'.dx) (b + d'.dy)).walls.get d'.opposite

/-- Every wall toward an out-of-bounds neighbour is present. -/
def OutwardOK (width height : ℕ) (m : CellFun) : Prop :=
  ∀ (a b : ℤ) (d' : Dir), inB width height a b →
    ¬ inB width height (a + d'.dx) (b + d'.dy) → (m a b).walls.get d' = true

/-- The cell at `p` carries the visited mark. -/
def visitedIn (m : CellFun) (p : ℤ × ℤ) : Prop := (m p.1 p.2).visited = true

/-- Every open boundary joins two visited cells. -/
def EdgesVisited (width height : ℕ) (m : CellFun) : Prop :=
  ∀ p q, EdgeStep width height m p q → visitedIn m p ∧ visitedIn m q

/-- Every open boundary joins cells that are visited or equal to the cell
currently being carved. -/
def EdgesVisitedOr (width height : ℕ) (m : CellFun) (c : ℤ × ℤ) : Prop :=
  ∀ p q, EdgeStep width height m p q →
    (visitedIn m p ∨ p = c) ∧ (visitedIn m q ∨ q = c)

/-- Only in-bounds cells carry the visited mark. -/
def VisitedInB (width height : ℕ) (m : CellFun) : Prop :=
  ∀ p, visitedIn m p → inB width height p.1 p.2

/-- All in-bounds neighbours of `p` are visited. -/
def SaturatedAt (width height : ℕ) (m : CellFun) (p : ℤ × ℤ) : Prop :=
  ∀ d : Dir, inB width height (p.1 + d.dx) (p.2 + d.dy) →
    visitedIn m (p.1 + d.dx, p.2 + d.dy)

/-- The positions written to 0 by `mazeToGrid` for lattice cell `(x, y)`
(src/maze.js lines 85-92): the cell interior and each boundary whose wall
flag is absent. -/
def writesTo (m : CellFun) (x y r c : ℕ) : Prop :=
  (r = 2 * y + 1 ∧ c = 2 * x + 1) ∨
  ((m (x : ℤ) (y : ℤ)).walls.north = false ∧ r = 2 * y ∧ c = 2 * x + 1) ∨
  ((m (x : ℤ) (y : ℤ)).walls.south = false ∧ r = 2 * y + 2 ∧ c = 2 * x + 1) ∨
  ((m (x : ℤ) (y : ℤ)).walls.west = false ∧ r = 2 * y + 1 ∧ c = 2 * x) ∨
  ((m (x : ℤ) (y : ℤ)).walls.east = false ∧ r = 2 * y + 1 ∧ c = 2 * x + 2)

instance writesToDec (m : CellFun) (x y r c : ℕ) : Decidable (writesTo m x y r c) := by
  unfold writesTo
  infer_instance

/-- `grid[row][col]` with JS out-of-range reads (`undefined`) modelled by the
default value 2, distinct from WALL = 1 and OPEN = 0. -/
def gridAt (grid : List (List ℕ)) (row col : ℤ) : ℕ :=
  (grid.getD row.toNat []).getD col.toNat 2

/-- `grid[row][col] = v` on the nested-list grid. -/
def set2 (g : List (List ℕ)) (row col v : ℕ) : List (List ℕ) :=
  g.set row ((g.getD row []).set col v)

/-- The body of `mazeToGrid`'s double loop for one cell (src/maze.js lines
85-92): open the cell interior and each boundary whose wall flag is absent. -/
def applyCell (m : CellFun) (p : ℕ × ℕ) (g : List (List ℕ)) : List (List ℕ) :=
  let c := m (p.1 : ℤ) (p.2 : ℤ)
  let gy := 2 * p.2 + 1
  let gx := 2 * p.1 + 1
  let g1 := set2 g gy gx 0
  let g2 := if c.walls.north = false then set2 g1 (gy - 1) gx 0 else g1
  let g3 := if c.walls.south = false then set2 g2 (gy + 1) gx 0 else g2
  let g4 := if c.walls.west = false then set2 g3 gy (gx - 1) 0 else g3
  if c.walls.east = false then set2 g4 gy (gx + 1) 0 else g4

/-- The traversal order of `mazeToGrid`'s double loop (src/maze.js lines
83-84): `y` outer, `x` inner. -/
def cellList (width height : ℕ) : List (ℕ × ℕ) :=
  (List.range height).flatMap fun y => (List.range width).map fun x => (x, y)

/-- `mazeToGrid(maze)` (src/maze.js lines 77-96): a `(h*2+1) × (w*2+1)` grid
initialised to all WALL (1), then opened cell by cell.  The lattice is a
function with explicit dimensions, so `maze.length` and `maze[0].length`
are the parameters `height` and `width`. -/
def mazeToGrid (m : CellFun) (width height : ℕ) : List (List ℕ) :=
  (cellList width height).foldl (fun g p => applyCell m p g)
    (List.replicate (height * 2 + 1) (List.replicate (width * 2 + 1) 1))

/-- Result of `castRay` (src/maze.js lines 355 and 373); the float
`Infinity` of the out-of-bounds return is modelled as `none`. -/
structure RayRes where
  dist : Option ℚ
  side : ℕ
  startSeen : Bool
  exitSeen : Bool
deriving DecidableEq

/-- The per-ray constants of `castRay` (src/maze.js lines 310-335): the
grid, the landmark coordinates (module state `startGridX/Y`, `exitX/Y`), the
origin, the direction components `rayDirX = cos(angle)`, `rayDirY =
sin(angle)` taken as rational parameters, and the derived step/delta
values. -/
structure RayCfg where
  grid : List (List ℕ)
  startGridX : ℤ
  startGridY : ℤ
  exitX : ℤ
  exitY : ℤ
  posX : ℚ
  posY : ℚ
  dirX : ℚ
  dirY : ℚ
  stepX : ℤ
  stepY : ℤ
  deltaDistX : ℚ
  deltaDistY : ℚ

/-- `grid[0].length` (src/maze.js line 354). -/
def gridW (cfg : RayCfg) : ℕ := (cfg.grid.getD 0 []).length

/-- `grid.length` (src/maze.js line 354). -/
def gridH (cfg : RayCfg) : ℕ := cfg.grid.length

/-- The mutable loop state of the DDA (src/maze.js lines 314-341). -/
structure DDAState where
  mapX : ℤ
  mapY : ℤ
  sideDistX : ℚ
  sideDistY : ℚ
  side : ℕ
  startSeen : Bool
  exitSeen : Bool
deriving DecidableEq

/-- One DDA advance (src/maze.js lines 344-352): step along the axis with
the smaller accumulated side distance and record which side was crossed. -/
def ddaStep (cfg : RayCfg) (st : DDAState) : DDAState :=
  if st.sideDistX < st.sideDistY then
    { st with
      sideDistX := st.sideDistX + cfg.deltaDistX
      mapX := st.mapX + cfg.stepX
      side := 0 }
  else
    { st with
      sideDistY := st.sideDistY + cfg.deltaDistY
      mapY := st.mapY + cfg.stepY
      side := 1 }

/-- The landmark latch (src/maze.js lines 357-361): if the entered cell is
OPEN and matches a landmark, set the corresponding flag. -/
def latchLandmarks (cfg : RayCfg) (st : DDAState) : DDAState :=
  if gridAt cfg.grid st.mapY st.mapX = 0 then
    { st with
      startSeen := if st.mapX = cfg.startGridX ∧ st.mapY = cfg.startGridY then true
        else st.startSeen,
      exitSeen := if st.mapX = cfg.exitX ∧ st.mapY = cfg.exitY then true
        else st.exitSeen }
  else st

/-- The perpendicular-distance formula (src/maze.js lines 367-372), with the
`1e-6` epsilon substitute for an exactly-zero direction component. -/
def perpDist (cfg : RayCfg) (st : DDAState) : ℚ :=
  if st.side = 0 then
    ((st.mapX : ℚ) - cfg.posX + (1 - (cfg.stepX : ℚ)) / 2) /
      (if cfg.dirX = 0 then 1 / 1000000 else cfg.dirX)
  else
    ((st.mapY : ℚ) - cfg.posY + (1 - (cfg.stepY : ℚ)) / 2) /
      (if cfg.dirY = 0 then 1 / 1000000 else cfg.dirY)

/-- The DDA `while` loop of `castRay` (src/maze.js lines 343-365), with
explicit fuel; `none` is fuel exhaustion (the JS loop is unbounded). -/
def ddaLoop (cfg : RayCfg) : ℕ → DDAState → Option RayRes
  | 0, _ => none
  | fuel + 1, st =>
    let st1 := ddaStep cfg st
    if st1.mapX < 0 ∨ (gridW cfg : ℤ) ≤ st1.mapX ∨ st1.mapY < 0 ∨
        (gridH cfg : ℤ) ≤ st1.mapY then
      some ⟨none, 0, false, false⟩
    else
      let st2 := latchLandmarks cfg st1
      if gridAt cfg.grid st2.mapY st2.mapX = 1 then
        some ⟨some (perpDist cfg st2), st2.side, st2.startSeen, st2.exitSeen⟩
      else
        ddaLoop cfg fuel st2

/-- Assemble the per-ray constants (src/maze.js lines 311-335). -/
def mkRayCfg (grid : List (List ℕ)) (sX sY eX eY : ℤ) (posX posY dirX dirY : ℚ) :
    RayCfg :=
  { grid := grid
    startGridX := sX
    startGridY := sY
    exitX := eX
    exitY := eY
    posX := posX
    posY := posY
    dirX := dirX
    dirY := dirY
    stepX := if dirX < 0 then -1 else 1
    stepY := if dirY < 0 then -1 else 1
    deltaDistX := if dirX = 0 then 10 ^ 30 else |1 / dirX|
    deltaDistY := if dirY = 0 then 10 ^ 30 else |1 / dirY| }

/-- The DDA state before the loop (src/maze.js lines 313-341): the map cell
of the origin, the initial side distances and side 0, and the origin-cell
landmark check. -/
def initDDA (cfg : RayCfg) : DDAState :=
  let mapX := ⌊cfg.posX⌋
  let mapY := ⌊cfg.posY⌋
  { mapX := mapX
    mapY := mapY
    sideDistX := if cfg.dirX < 0 then (cfg.posX - (mapX : ℚ)) * cfg.deltaDistX
      else ((mapX : ℚ) + 1 - cfg.posX) * cfg.deltaDistX
    sideDistY := if cfg.dirY < 0 then (cfg.posY - (mapY : ℚ)) * cfg.deltaDistY
      else ((mapY : ℚ) + 1 - cfg.posY) * cfg.deltaDistY
    side := 0
    startSeen := if mapX = cfg.startGridX ∧ mapY = cfg.startGridY then true else false
    exitSeen := if mapX = cfg.exitX ∧ mapY = cfg.exitY then true else false }

/-- `castRay(posX, posY, rayAngle)` (src/maze.js lines 310-374), over the
grid and landmark module state, with the direction components as parameters
and explicit loop fuel. -/
def castRay (grid : List (List ℕ)) (sX sY eX eY : ℤ) (posX posY dirX dirY : ℚ)
    (fuel : ℕ) : Option RayRes :=
  let cfg := mkRayCfg grid sX sY eX eY posX posY dirX dirY
  ddaLoop cfg fuel (initDDA cfg)

/-- Instrumented DDA loop: identical to `ddaLoop` but also returns the list
of map cells the walk stepped into (in order, including the final hit cell;
an out-of-bounds exit reports no cells, matching the fresh result object the
source returns there). -/
def ddaLoopT (cfg : RayCfg) : ℕ → DDAState → Option (RayRes × List (ℤ × ℤ))
  | 0, _ => none
  | fuel + 1, st =>
    let st1 := ddaStep cfg st
    if st1.mapX < 0 ∨ (gridW cfg : ℤ) ≤ st1.mapX ∨ st1.mapY < 0 ∨
        (gridH cfg : ℤ) ≤ st1.mapY then
      some (⟨none, 0, false, false⟩, [])
    else
      let st2 := latchLandmarks cfg st1
      if gridAt cfg.grid st2.mapY st2.mapX = 1 then
        some (⟨some (perpDist cfg st2), st2.side, st2.startSeen, st2.exitSeen⟩,
          [(st2.mapX, st2.mapY)])
      else
        match ddaLoopT cfg fuel st2 with
        | none => none
        | some (r, tr) => some (r, (st2.mapX, st2.mapY) :: tr)

/-- `castRay` with the visited-cell trace. -/
def castRayT (grid : List (List ℕ)) (sX sY eX eY : ℤ) (posX posY dirX dirY : ℚ)
    (fuel : ℕ) : Option (RayRes × List (ℤ × ℤ)) :=
  let cfg := mkRayCfg grid sX sY eX eY posX posY dirX dirY
  ddaLoopT cfg fuel (initDDA cfg)

/-- Per-column ray angle `player.angle - fov / 2 + (x / w) * fov`
(src/maze.js line 393). -/
noncomputable def rayAngle (poseAngle fov : ℝ) (x w : ℕ) : ℝ :=
  poseAngle - fov / 2 + ((x : ℝ) / (w : ℝ)) * fov

/-- Fisheye correction `distance * Math.cos(rayAngle - player.angle)`
(src/maze.js line 397). -/
noncomputable def correctedDist (distance rAngle poseAngle : ℝ) : ℝ :=
  distance * Real.cos (rAngle - poseAngle)

/-- `isWall(x, y)` of the movement integrator (src/maze.js lines 511-516):
floor the real position, treat out-of-bounds as blocked, otherwise test the
tile. -/
def isWall (grid : List (List ℕ)) (x y : ℚ) : Bool :=
  let gx := ⌊x⌋
  let gy := ⌊y⌋
  if gx < 0 ∨ ((grid.getD 0 []).length : ℤ) ≤ gx ∨ gy < 0 ∨
      (grid.length : ℤ) ≤ gy then true
  else decide (gridAt grid gy gx = 1)

/-- The per-frame movement intent (the `keys` fields consumed by the
movement part of `update`, src/maze.js lines 140-147 and 500-505). -/
structure Intent where
  forward : Bool
  backward : Bool
  strafeLeft : Bool
  strafeRight : Bool

/-- The proposed next position `(newX, newY)` of `update(delta)`
(src/maze.js lines 500-507): velocity from the held keys, applied along the
heading (`c1, s1`) and the strafe axis (`c2, s2`). -/
def proposedMove (px py c1 s1 c2 s2 moveSpeed delta : ℚ) (k : Intent) : ℚ × ℚ :=
  let moveStep := (if k.forward then moveSpeed * delta else 0) +
    (if k.backward then -(moveSpeed * delta) else 0)
  let strafeStep := (if k.strafeLeft then -(moveSpeed * delta) else 0) +
    (if k.strafeRight then moveSpeed * delta else 0)
  (px + c1 * moveStep + c2 * strafeStep, py + s1 * moveStep + s2 * strafeStep)

/-- The movement / collision part of `update(delta)` (src/maze.js lines
499-525).  `c1 = Math.cos(player.angle)`, `s1 = Math.sin(player.angle)`,
`c2 = Math.cos(player.angle + Math.PI/2)` and `s2 = Math.sin(player.angle +
Math.PI/2)` enter as exact rational parameters.  Returns the new
`(player.x, player.y)`. -/
def updateMove (grid : List (List ℕ)) (px py c1 s1 c2 s2 moveSpeed delta : ℚ)
    (k : Intent) : ℚ × ℚ :=
  let newX := (proposedMove px py c1 s1 c2 s2 moveSpeed delta k).1
  let newY := (proposedMove px py c1 s1 c2 s2 moveSpeed delta k).2
  let radius : ℚ := 2 / 10
  let px' := if isWall grid (newX + c1 * radius) py = false then newX else px
  let py' := if isWall grid px' (newY + s1 * radius) = false then newY else py
  (px', py')

/-- Decidability of the open-boundary step relation. -/
instance edgeStepDecidable (width height : ℕ) (m : CellFun) (p q : ℤ × ℤ) :
    Decidable (EdgeStep width height m p q) := by
  unfold EdgeStep inB
  infer_instance

/-- Decidability of adjacency in the `Fin`-indexed open-boundary graph. -/
instance mazeGraphAdjDecidable (width height : ℕ) (m : CellFun) :
    DecidableRel (mazeGraph width height m).Adj :=
  fun a b => edgeStepDecidable width height m ((a.1 : ℤ), (a.2 : ℤ)) ((b.1 : ℤ), (b.2 : ℤ))

/-- An in-bounds integer cell as an element of `Fin width × Fin height`. -/
def toFinPair (width height : ℕ) (p : ℤ × ℤ) (hp : inB width height p.1 p.2) :
    Fin width × Fin height :=
  have hp' : 0 ≤ p.1 ∧ p.1 < (width : ℤ) ∧ 0 ≤ p.2 ∧ p.2 < (height : ℤ) := hp
  (⟨p.1.toNat, by omega⟩, ⟨p.2.toNat, by omega⟩)

/-- The undirected graph edge corresponding to an opened boundary: `.inl`
for the horizontal (east) boundary of a cell, `.inr` for its vertical
(south) boundary.  Coordinates are clamped so the function is total; on
boundaries that actually exist the clamping is the identity. -/
def boundaryEdge (width height : ℕ) (hw : 0 < width) (hh : 0 < height) :
    (ℕ × ℕ) ⊕ (ℕ × ℕ) → Sym2 (Fin width × Fin height)
  | .inl p => s((⟨min p.1 (width - 1), by omega⟩, ⟨min p.2 (height - 1), by omega⟩),
      (⟨min (p.1 + 1) (width - 1), by omega⟩, ⟨min p.2 (height - 1), by omega⟩))
  | .inr p => s((⟨min p.1 (width - 1), by omega⟩, ⟨min p.2 (height - 1), by omega⟩),
      (⟨min p.1 (width - 1), by omega⟩, ⟨min (p.2 + 1) (height - 1), by omega⟩))

/-! ### Theorems -/

/-! #### Pointwise lattice-update lemmas -/

theorem Walls.get_clear (ws : Walls) (d d' : Dir) :
    (ws.clear d).get d' = if d' = d then false else ws.get d' := by
  cases d <;> cases d' <;> simp [Walls.clear, Walls.get]

theorem markVisited_walls (m : CellFun) (x y a b : ℤ) :
    ((markVisited m x y) a b).walls = (m a b).walls := by
  unfold markVisited setCell
  split
  · rename_i h
    rw [h.1, h.2]
  · rfl

theorem markVisited_visited (m : CellFun) (x y a b : ℤ) :
    ((markVisited m x y) a b).visited =
      if a = x ∧ b = y then true else (m a b).visited := by
  unfold markVisited setCell
  split
  · rfl
  · rfl

theorem clearWallAt_visited (m : CellFun) (x y : ℤ) (d : Dir) (a b : ℤ) :
    ((clearWallAt m x y d) a b).visited = (m a b).visited := by
  unfold clearWallAt setCell
  split
  · rename_i h
    rw [h.1, h.2]
  · rfl

theorem openBoth_visited (m : CellFun) (x y : ℤ) (d : Dir) (a b : ℤ) :
    ((openBoth m x y d) a b).visited = (m a b).visited := by
  unfold openBoth
  rw [clearWallAt_visited, clearWallAt_visited]

theorem clearWallAt_get (m : CellFun) (x y : ℤ) (d : Dir) (a b : ℤ) (d' : Dir) :
    ((clearWallAt m x y d) a b).walls.get d' =
      if (a = x ∧ b = y) ∧ d' = d then false else (m a b).walls.get d' := by
  unfold clearWallAt setCell
  by_cases h : a = x ∧ b = y
  · rw [if_pos h]
    dsimp only
    rw [Walls.get_clear, h.1, h.2]
    by_cases hd : d' = d
    · rw [if_pos hd, if_pos ⟨⟨rfl, rfl⟩, hd⟩]
    · rw [if_neg hd, if_neg (by rintro ⟨_, hc⟩; exact hd hc)]
  · rw [if_neg h, if_neg (by rintro ⟨hc, _⟩; exact h hc)]

theorem openBoth_get (m : CellFun) (x y : ℤ) (d : Dir) (a b : ℤ) (d' : Dir) :
    ((openBoth m x y d) a b).walls.get d' =
      if (a = x + d.dx ∧ b = y + d.dy) ∧ d' = d.opposite then false
      else if (a = x ∧ b = y) ∧ d' = d then false
      else (m a b).walls.get d' := by
  unfold openBoth
  rw [clearWallAt_get, clearWallAt_get]

theorem Dir.opposite_dx (d : Dir) : d.opposite.dx = -d.dx := by
  cases d <;> rfl

theorem Dir.opposite_dy (d : Dir) : d.opposite.dy = -d.dy := by
  cases d <;> rfl

theorem Dir.opposite_opposite (d : Dir) : d.opposite.opposite = d := by
  cases d <;> rfl

theorem Dir.delta_ne_zero (d : Dir) : d.dx ≠ 0 ∨ d.dy ≠ 0 := by
  cases d <;> simp [Dir.dx, Dir.dy]

/-! #### Unfolding and monotonicity of `carve` -/

theorem carve_zero (rng : ℕ → ℕ) (w h : ℕ) (x y : ℤ) (st : GenState) :
    carve rng w h 0 x y st = st := rfl

theorem carve_succ (rng : ℕ → ℕ) (w h fuel : ℕ) (x y : ℤ) (st : GenState) :
    carve rng w h (fuel + 1) x y st =
      tryDir rng w h fuel x y
        (shuffledDirs (rng st.ctr) (rng (st.ctr + 1)) (rng (st.ctr + 2))).2.2.2
        (tryDir rng w h fuel x y
          (shuffledDirs (rng st.ctr) (rng (st.ctr + 1)) (rng (st.ctr + 2))).2.2.1
          (tryDir rng w h fuel x y
            (shuffledDirs (rng st.ctr) (rng (st.ctr + 1)) (rng (st.ctr + 2))).2.1
            (tryDir rng w h fuel x y
              (shuffledDirs (rng st.ctr) (rng (st.ctr + 1)) (rng (st.ctr + 2))).1
              ⟨markVisited st.m x y, st.ctr + 3⟩))) := rfl

theorem carve_visited_mono (rng : ℕ → ℕ) (w h : ℕ) :
    ∀ (fuel : ℕ) (x y : ℤ) (st : GenState) (a b : ℤ),
      (st.m a b).visited = true →
      ((carve rng w h fuel x y st).m a b).visited = true := by
  intro fuel
  induction fuel with
  | zero => exact fun _ _ _ _ _ hv => hv
  | succ f ih =>
    intro x y st a b hv
    have htry : ∀ (x y : ℤ) (d : Dir) (s : GenState) (a b : ℤ),
        (s.m a b).visited = true →
        ((tryDir rng w h f x y d s).m a b).visited = true := by
      intro x y d s a b hv
      simp only [tryDir]
      split
      · apply ih
        show ((openBoth s.m x y d) a b).visited = true
        rw [openBoth_visited]
        exact hv
      · exact hv
    rw [carve_succ]
    apply htry
    apply htry
    apply htry
    apply htry
    show ((markVisited st.m x y) a b).visited = true
    rw [markVisited_visited]
    split
    · rfl
    · exact hv

theorem tryDir_visited_mono (rng : ℕ → ℕ) (w h fuel : ℕ) (x y : ℤ) (d : Dir)
    (s : GenState) (a b : ℤ) (hv : (s.m a b).visited = true) :
    ((tryDir rng w h fuel x y d s).m a b).visited = true := by
  simp only [tryDir]
  split
  · apply carve_visited_mono
    show ((openBoth s.m x y d) a b).visited = true
    rw [openBoth_visited]
    exact hv
  · exact hv

theorem carve_marks (rng : ℕ → ℕ) (w h fuel : ℕ) (x y : ℤ) (st : GenState) :
    ((carve rng w h (fuel + 1) x y st).m x y).visited = true := by
  rw [carve_succ]
  apply tryDir_visited_mono
  apply tryDir_visited_mono
  apply tryDir_visited_mono
  apply tryDir_visited_mono
  show ((markVisited st.m x y) x y).visited = true
  rw [markVisited_visited]
  rw [if_pos ⟨rfl, rfl⟩]

theorem carve_walls_mono (rng : ℕ → ℕ) (w h : ℕ) :
    ∀ (fuel : ℕ) (x y : ℤ) (st : GenState) (a b : ℤ) (d' : Dir),
      (st.m a b).walls.get d' = false →
      ((carve rng w h fuel x y st).m a b).walls.get d' = false := by
  intro fuel
  induction fuel with
  | zero => exact fun _ _ _ _ _ _ hw => hw
  | succ f ih =>
    intro x y st a b d' hw
    have htry : ∀ (x y : ℤ) (d : Dir) (s : GenState) (a b : ℤ) (d' : Dir),
        (s.m a b).walls.get d' = false →
        ((tryDir rng w h f x y d s).m a b).walls.get d' = false := by
      intro x y d s a b d' hw
      simp only [tryDir]
      split
      · apply ih
        show ((openBoth s.m x y d) a b).walls.get d' = false
        rw [openBoth_get]
        split
        · rfl
        · split
          · rfl
          · exact hw
      · exact hw
    rw [carve_succ]
    apply htry
    apply htry
    apply htry
    apply htry
    show ((markVisited st.m x y) a b).walls.get d' = false
    rw [markVisited_walls]
    exact hw

/-! #### Shuffle membership and counting -/

/-- Every direction occurs in the shuffled order: Fisher-Yates on the
4-element array permutes it. -/
theorem shuffledDirs_mem (r1 r2 r3 : ℕ) :
    ∀ d : Dir, d = (shuffledDirs r1 r2 r3).1 ∨ d = (shuffledDirs r1 r2 r3).2.1 ∨
      d = (shuffledDirs r1 r2 r3).2.2.1 ∨ d = (shuffledDirs r1 r2 r3).2.2.2 := by
  have h1 : r1 % 4 < 4 := Nat.mod_lt _ (by norm_num)
  have h2 : r2 % 3 < 3 := Nat.mod_lt _ (by norm_num)
  have h3 : r3 % 2 < 2 := Nat.mod_lt _ (by norm_num)
  unfold shuffledDirs
  intro d
  interval_cases h : r1 % 4 <;> interval_cases h' : r2 % 3 <;>
    interval_cases h'' : r3 % 2 <;> cases d <;> decide

theorem unvisitedCount_le (w h : ℕ) (m m' : CellFun)
    (hmono : ∀ p : ℤ × ℤ, visitedIn m p → visitedIn m' p) :
    unvisitedCount w h m' ≤ unvisitedCount w h m := by
  apply Finset.card_le_card
  intro p hp
  rw [Finset.mem_filter] at hp ⊢
  refine ⟨hp.1, ?_⟩
  by_contra hc
  rw [Bool.not_eq_false] at hc
  have h3 : (m' (p.1 : ℤ) (p.2 : ℤ)).visited = true := hmono (p.1, p.2) hc
  rw [hp.2] at h3
  exact Bool.false_ne_true h3

theorem unvisitedCount_lt (w h : ℕ) (m m' : CellFun)
    (hmono : ∀ p : ℤ × ℤ, visitedIn m p → visitedIn m' p)
    (x y : ℕ) (hx : x < w) (hy : y < h)
    (hold : (m (x : ℤ) (y : ℤ)).visited = false)
    (hnew : (m' (x : ℤ) (y : ℤ)).visited = true) :
    unvisitedCount w h m' < unvisitedCount w h m := by
  apply Finset.card_lt_card
  constructor
  · intro p hp
    rw [Finset.mem_filter] at hp ⊢
    refine ⟨hp.1, ?_⟩
    by_contra hc
    rw [Bool.not_eq_false] at hc
    have h3 : (m' (p.1 : ℤ) (p.2 : ℤ)).visited = true := hmono (p.1, p.2) hc
    rw [hp.2] at h3
    exact Bool.false_ne_true h3
  · intro hsub
    have hmem : (x, y) ∈ (Finset.range w ×ˢ Finset.range h).filter
        (fun p => (m (p.1 : ℤ) (p.2 : ℤ)).visited = false) := by
      rw [Finset.mem_filter, Finset.mem_product]
      exact ⟨⟨Finset.mem_range.mpr hx, Finset.mem_range.mpr hy⟩, hold⟩
    have h4 := hsub hmem
    rw [Finset.mem_filter] at h4
    rw [h4.2] at hnew
    exact Bool.false_ne_true hnew

theorem unvisitedCount_pos (w h : ℕ) (m : CellFun) (x y : ℕ) (hx : x < w) (hy : y < h)
    (hun : (m (x : ℤ) (y : ℤ)).visited = false) :
    1 ≤ unvisitedCount w h m := by
  have hmem : (x, y) ∈ (Finset.range w ×ˢ Finset.range h).filter
      (fun p => (m (p.1 : ℤ) (p.2 : ℤ)).visited = false) := by
    rw [Finset.mem_filter, Finset.mem_product]
    exact ⟨⟨Finset.mem_range.mpr hx, Finset.mem_range.mpr hy⟩, hun⟩
  exact Finset.card_pos.mpr ⟨(x, y), hmem⟩

/-! #### Open-boundary graph lemmas -/

theorem edgeStep_markVisited (w h : ℕ) (m : CellFun) (x y : ℤ) (p q : ℤ × ℤ) :
    EdgeStep w h (markVisited m x y) p q ↔ EdgeStep w h m p q := by
  unfold EdgeStep
  rw [markVisited_walls, markVisited_walls]

theorem mazeGraphZ_markVisited (w h : ℕ) (m : CellFun) (x y : ℤ) :
    mazeGraphZ w h (markVisited m x y) = mazeGraphZ w h m := by
  ext p q
  exact edgeStep_markVisited w h m x y p q

theorem edgeStep_mono (w h : ℕ) (m m' : CellFun)
    (hw : ∀ (a b : ℤ) (d : Dir), (m a b).walls.get d = false →
      (m' a b).walls.get d = false)
    (p q : ℤ × ℤ) (he : EdgeStep w h m p q) : EdgeStep w h m' p q := by
  obtain ⟨hp, hq, hc⟩ := he
  refine ⟨hp, hq, ?_⟩
  rcases hc with ⟨h1, h2, h3⟩ | ⟨h1, h2, h3⟩ | ⟨h1, h2, h3⟩ | ⟨h1, h2, h3⟩
  · exact Or.inl ⟨h1, h2, hw _ _ _ h3⟩
  · exact Or.inr (Or.inl ⟨h1, h2, hw _ _ _ h3⟩)
  · exact Or.inr (Or.inr (Or.inl ⟨h1, h2, hw _ _ _ h3⟩))
  · exact Or.inr (Or.inr (Or.inr ⟨h1, h2, hw _ _ _ h3⟩))

theorem reach_mono (w h : ℕ) (m m' : CellFun)
    (hw : ∀ (a b : ℤ) (d : Dir), (m a b).walls.get d = false →
      (m' a b).walls.get d = false)
    (p q : ℤ × ℤ) (hr : ReachOpen w h m p q) : ReachOpen w h m' p q :=
  Relation.ReflTransGen.mono (fun _ _ he => edgeStep_mono w h m m' hw _ _ he) hr

theorem openBoth_walls_mono (m : CellFun) (x y : ℤ) (d : Dir) (a b : ℤ) (d' : Dir)
    (hf : (m a b).walls.get d' = false) :
    ((openBoth m x y d) a b).walls.get d' = false := by
  rw [openBoth_get]
  split_ifs <;> first | rfl | exact hf

theorem edgeStep_symm (w h : ℕ) (m : CellFun) (p q : ℤ × ℤ)
    (he : EdgeStep w h m p q) : EdgeStep w h m q p :=
  (mazeGraphZ w h m).symm he

/-- The freshly opened boundary is an edge of the new graph. -/
theorem openBoth_newEdge (w h : ℕ) (m : CellFun) (x y : ℤ) (d : Dir)
    (hx : inB w h x y) (hn : inB w h (x + d.dx) (y + d.dy)) :
    EdgeStep w h (openBoth m x y d) (x, y) (x + d.dx, y + d.dy) := by
  refine ⟨hx, hn, ?_⟩
  cases d
  · refine Or.inr (Or.inr (Or.inr ⟨by first | (simp only [Dir.dx, Dir.dy]; omega) | simp only [Dir.dx, Dir.dy] | omega, by first | (simp only [Dir.dx, Dir.dy]; omega) | simp only [Dir.dx, Dir.dy] | omega, ?_⟩))
    rw [openBoth_get, if_pos ⟨⟨rfl, rfl⟩, rfl⟩]
  · refine Or.inr (Or.inr (Or.inl ⟨by first | (simp only [Dir.dx, Dir.dy]; omega) | simp only [Dir.dx, Dir.dy] | omega, by first | (simp only [Dir.dx, Dir.dy]; omega) | simp only [Dir.dx, Dir.dy] | omega, ?_⟩))
    rw [openBoth_get]
    rw [if_neg (by rintro ⟨⟨_, e2⟩, _⟩; simp only [Dir.dy] at e2; omega),
      if_pos ⟨⟨rfl, rfl⟩, rfl⟩]
  · refine Or.inr (Or.inl ⟨by first | (simp only [Dir.dx, Dir.dy]; omega) | simp only [Dir.dx, Dir.dy] | omega, by first | (simp only [Dir.dx, Dir.dy]; omega) | simp only [Dir.dx, Dir.dy] | omega, ?_⟩)
    rw [openBoth_get, if_pos ⟨⟨rfl, rfl⟩, rfl⟩]
  · refine Or.inl ⟨by first | (simp only [Dir.dx, Dir.dy]; omega) | simp only [Dir.dx, Dir.dy] | omega, by first | (simp only [Dir.dx, Dir.dy]; omega) | simp only [Dir.dx, Dir.dy] | omega, ?_⟩
    rw [openBoth_get]
    rw [if_neg (by rintro ⟨⟨e1, _⟩, _⟩; simp only [Dir.dx] at e1; omega),
      if_pos ⟨⟨rfl, rfl⟩, rfl⟩]

/-- Opening the boundary between an in-bounds cell and its in-bounds
`d`-neighbour adds exactly that edge to the open-boundary graph. -/
theorem edgeStep_openBoth (w h : ℕ) (m : CellFun) (x y : ℤ) (d : Dir)
    (hx : inB w h x y) (hn : inB w h (x + d.dx) (y + d.dy)) (p q : ℤ × ℤ) :
    EdgeStep w h (openBoth m x y d) p q ↔
      EdgeStep w h m p q ∨ (p = (x, y) ∧ q = (x + d.dx, y + d.dy)) ∨
        (p = (x + d.dx, y + d.dy) ∧ q = (x, y)) := by
  constructor
  · rintro ⟨hp, hq, hc⟩
    rcases hc with ⟨h1, h2, h3⟩ | ⟨h1, h2, h3⟩ | ⟨h1, h2, h3⟩ | ⟨h1, h2, h3⟩ <;>
      rw [openBoth_get] at h3 <;> split_ifs at h3 with hA hB
    · right
      obtain ⟨⟨e1, e2⟩, e3⟩ := hA
      cases d <;> simp_all [Dir.dx, Dir.dy, Dir.opposite, Prod.ext_iff] <;> omega
    · right
      obtain ⟨⟨e1, e2⟩, e3⟩ := hB
      cases d <;> simp_all [Dir.dx, Dir.dy, Dir.opposite, Prod.ext_iff] <;> omega
    · exact Or.inl ⟨hp, hq, Or.inl ⟨h1, h2, h3⟩⟩
    · right
      obtain ⟨⟨e1, e2⟩, e3⟩ := hA
      cases d <;> simp_all [Dir.dx, Dir.dy, Dir.opposite, Prod.ext_iff] <;> omega
    · right
      obtain ⟨⟨e1, e2⟩, e3⟩ := hB
      cases d <;> simp_all [Dir.dx, Dir.dy, Dir.opposite, Prod.ext_iff] <;> omega
    · exact Or.inl ⟨hp, hq, Or.inr (Or.inl ⟨h1, h2, h3⟩)⟩
    · right
      obtain ⟨⟨e1, e2⟩, e3⟩ := hA
      cases d <;> simp_all [Dir.dx, Dir.dy, Dir.opposite, Prod.ext_iff] <;> omega
    · right
      obtain ⟨⟨e1, e2⟩, e3⟩ := hB
      cases d <;> simp_all [Dir.dx, Dir.dy, Dir.opposite, Prod.ext_iff] <;> omega
    · exact Or.inl ⟨hp, hq, Or.inr (Or.inr (Or.inl ⟨h1, h2, h3⟩))⟩
    · right
      obtain ⟨⟨e1, e2⟩, e3⟩ := hA
      cases d <;> simp_all [Dir.dx, Dir.dy, Dir.opposite, Prod.ext_iff] <;> omega
    · right
      obtain ⟨⟨e1, e2⟩, e3⟩ := hB
      cases d <;> simp_all [Dir.dx, Dir.dy, Dir.opposite, Prod.ext_iff] <;> omega
    · exact Or.inl ⟨hp, hq, Or.inr (Or.inr (Or.inr ⟨h1, h2, h3⟩))⟩
  · rintro (he | ⟨rfl, rfl⟩ | ⟨rfl, rfl⟩)
    · exact edgeStep_mono w h m _ (openBoth_walls_mono m x y d) p q he
    · exact openBoth_newEdge w h m x y d hx hn
    · exact edgeStep_symm w h _ _ _ (openBoth_newEdge w h m x y d hx hn)


theorem symOK_markVisited (m : CellFun) (x y : ℤ) (hs : SymOK m) :
    SymOK (markVisited m x y) := by
  intro a b d'
  rw [markVisited_walls, markVisited_walls]
  exact hs a b d'

theorem symOK_openBoth (m : CellFun) (x y : ℤ) (d : Dir) (hs : SymOK m) :
    SymOK (openBoth m x y d) := by
  intro a b d'
  rw [openBoth_get, openBoth_get]
  split_ifs <;> first
    | rfl
    | exact hs a b d'
    | (exfalso
       cases d <;> cases d' <;>
         simp only [Dir.dx, Dir.dy, Dir.opposite, eq_self_iff_true, reduceCtorEq,
           true_and, and_true, false_and, and_false, not_true, not_false_iff] at * <;>
         omega)

theorem outwardOK_markVisited (w h : ℕ) (m : CellFun) (x y : ℤ)
    (ho : OutwardOK w h m) : OutwardOK w h (markVisited m x y) := by
  intro a b d' ha hn
  rw [markVisited_walls]
  exact ho a b d' ha hn

theorem outwardOK_openBoth (w h : ℕ) (m : CellFun) (x y : ℤ) (d : Dir)
    (hx : inB w h x y) (hn : inB w h (x + d.dx) (y + d.dy))
    (ho : OutwardOK w h m) : OutwardOK w h (openBoth m x y d) := by
  intro a b d' ha hnb
  rw [openBoth_get]
  split_ifs with h1 h2
  · exfalso
    obtain ⟨⟨e1, e2⟩, e3⟩ := h1
    apply hnb
    rw [e1, e2, e3, Dir.opposite_dx, Dir.opposite_dy]
    simp only [inB] at hx ⊢
    omega
  · exfalso
    obtain ⟨⟨e1, e2⟩, e3⟩ := h2
    apply hnb
    rw [e1, e2, e3]
    exact hn
  · exact ho a b d' ha hnb

theorem carve_symOK (rng : ℕ → ℕ) (w h : ℕ) :
    ∀ (fuel : ℕ) (x y : ℤ) (st : GenState), SymOK st.m →
      SymOK (carve rng w h fuel x y st).m := by
  intro fuel
  induction fuel with
  | zero => exact fun _ _ _ hs => hs
  | succ f ih =>
    intro x y st hs
    have htry : ∀ (x y : ℤ) (d : Dir) (s : GenState), SymOK s.m →
        SymOK (tryDir rng w h f x y d s).m := by
      intro x y d s hs
      simp only [tryDir]
      split
      · exact ih _ _ _ (symOK_openBoth s.m x y d hs)
      · exact hs
    rw [carve_succ]
    apply htry
    apply htry
    apply htry
    apply htry
    exact symOK_markVisited st.m x y hs

theorem carve_outwardOK (rng : ℕ → ℕ) (w h : ℕ) :
    ∀ (fuel : ℕ) (x y : ℤ) (st : GenState), inB w h x y → OutwardOK w h st.m →
      OutwardOK w h (carve rng w h fuel x y st).m := by
  intro fuel
  induction fuel with
  | zero => exact fun _ _ _ _ ho => ho
  | succ f ih =>
    intro x y st hxy ho
    have htry : ∀ (x y : ℤ) (d : Dir) (s : GenState), inB w h x y → OutwardOK w h s.m →
        OutwardOK w h (tryDir rng w h f x y d s).m := by
      intro x y d s hxy ho
      simp only [tryDir]
      split
      · rename_i hg
        exact ih _ _ _ ⟨hg.1, hg.2.1, hg.2.2.1, hg.2.2.2.1⟩
          (outwardOK_openBoth w h s.m x y d hxy ⟨hg.1, hg.2.1, hg.2.2.1, hg.2.2.2.1⟩ ho)
      · exact ho
    rw [carve_succ]
    apply htry _ _ _ _ hxy
    apply htry _ _ _ _ hxy
    apply htry _ _ _ _ hxy
    apply htry _ _ _ _ hxy
    exact outwardOK_markVisited w h st.m x y ho

theorem initial_symOK : SymOK initialState.m := by
  intro a b d'
  show initialCell.walls.get d' = initialCell.walls.get d'.opposite
  cases d' <;> rfl

theorem initial_outwardOK (w h : ℕ) : OutwardOK w h initialState.m := by
  intro a b d' _ _
  cases d' <;> rfl

theorem generateMazeCore_symOK (w h : ℕ) (rng : ℕ → ℕ) :
    SymOK (generateMazeCore w h rng) :=
  carve_symOK rng w h (w * h) 0 0 initialState initial_symOK

theorem generateMazeCore_outwardOK (w h : ℕ) (hw : 1 ≤ w) (hh : 1 ≤ h)
    (rng : ℕ → ℕ) : OutwardOK w h (generateMazeCore w h rng) :=
  carve_outwardOK rng w h (w * h) 0 0 initialState
    ⟨le_refl 0, by exact_mod_cast Int.ofNat_pos.mpr hw, le_refl 0,
      by exact_mod_cast Int.ofNat_pos.mpr hh⟩
    (initial_outwardOK w h)

theorem generateMazeCore_borderIntact (w h : ℕ) (hw : 1 ≤ w) (hh : 1 ≤ h)
    (rng : ℕ → ℕ) : BorderIntact w h (generateMazeCore w h rng) := by
  have ho := generateMazeCore_outwardOK w h hw hh rng
  intro x y hxy
  refine ⟨fun he => ?_, fun he => ?_, fun he => ?_, fun he => ?_⟩
  · apply ho x y .north hxy
    simp only [inB, Dir.dx, Dir.dy] at hxy ⊢
    omega
  · apply ho x y .south hxy
    simp only [inB, Dir.dx, Dir.dy] at hxy ⊢
    omega
  · apply ho x y .west hxy
    simp only [inB, Dir.dx, Dir.dy] at hxy ⊢
    omega
  · apply ho x y .east hxy
    simp only [inB, Dir.dx, Dir.dy] at hxy ⊢
    omega

/-- C4: in every generated lattice the wall flags on every shared boundary
are mutually consistent — a cell's flag toward its neighbour is absent
exactly when the neighbour's flag back is absent — as a structural
invariant of the finished maze. -/
theorem generateMaze_wall_consistent (w h : ℕ) (hw : 1 ≤ w) (hh : 1 ≤ h)
    (rng : ℕ → ℕ) : Consistent w h (generateMazeCore w h rng) := by
  have hs := generateMazeCore_symOK w h rng
  intro x y _
  constructor
  · intro _
    simpa [Dir.dx, Dir.dy, Dir.opposite] using hs x y .east
  · intro _
    simpa [Dir.dx, Dir.dy, Dir.opposite] using hs x y .south

/-- Witness for C4 on an 8×8 maze with the zero random oracle. -/
theorem generateMaze_wall_consistent_witness :
    Consistent 8 8 (generateMazeCore 8 8 fun _ => 0) :=
  generateMaze_wall_consistent 8 8 (by norm_num) (by norm_num) (fun _ => 0)

/-! #### Grid update lemmas -/

theorem getD_set {α : Type} (l : List α) (i j : ℕ) (a d : α) :
    (l.set i a).getD j d = if i = j ∧ i < l.length then a else l.getD j d := by
  rw [List.getD_eq_getElem?_getD, List.getD_eq_getElem?_getD, List.getElem?_set]
  by_cases h : i = j
  · subst h
    by_cases hl : i < l.length
    · rw [if_pos rfl, if_pos hl, if_pos ⟨rfl, hl⟩]
      rfl
    · rw [if_pos rfl, if_neg hl, if_neg (by rintro ⟨_, c⟩; exact hl c),
        List.getElem?_eq_none (by omega)]
  · rw [if_neg h, if_neg (by rintro ⟨c, _⟩; exact h c)]

theorem set2_length (g : List (List ℕ)) (r c v : ℕ) :
    (set2 g r c v).length = g.length := List.length_set _ _ _

theorem set2_row_length (g : List (List ℕ)) (r c v i : ℕ) :
    ((set2 g r c v).getD i []).length = (g.getD i []).length := by
  unfold set2
  rw [getD_set]
  split
  · rename_i hc
    rw [List.length_set, hc.1]
  · rfl

theorem set2_get (g : List (List ℕ)) (r c v i j : ℕ) :
    ((set2 g r c v).getD i []).getD j 2 =
      if r = i ∧ c = j ∧ r < g.length ∧ c < (g.getD r []).length then v
      else (g.getD i []).getD j 2 := by
  unfold set2
  rw [getD_set]
  by_cases h1 : r = i ∧ r < g.length
  · rw [if_pos h1, getD_set]
    obtain ⟨rfl, hrl⟩ := h1
    by_cases h2 : c = j ∧ c < (g.getD r []).length
    · rw [if_pos h2, if_pos ⟨rfl, h2.1, hrl, h2.2⟩]
    · rw [if_neg h2, if_neg (by rintro ⟨_, hcj, _, hcl⟩; exact h2 ⟨hcj, hcl⟩)]
  · rw [if_neg h1, if_neg (by rintro ⟨hri, _, hrl, _⟩; exact h1 ⟨hri, hrl⟩)]

theorem Walls.get_north (ws : Walls) : ws.get .north = ws.north := rfl

theorem Walls.get_south (ws : Walls) : ws.get .south = ws.south := rfl

theorem Walls.get_west (ws : Walls) : ws.get .west = ws.west := rfl

theorem Walls.get_east (ws : Walls) : ws.get .east = ws.east := rfl

theorem getD_replicate {α : Type} (n : ℕ) (a d : α) (i : ℕ) (h : i < n) :
    (List.replicate n a).getD i d = a := by
  rw [List.getD_eq_getElem?_getD, List.getElem?_replicate, if_pos h]
  rfl

theorem applyCell_get (m : CellFun) (x y : ℕ) (g : List (List ℕ))
    (hrow : ∀ i, i < g.length → (g.getD i []).length = (g.getD 0 []).length)
    (hr : 2 * y + 2 < g.length) (hc : 2 * x + 2 < (g.getD 0 []).length) (r c : ℕ) :
    ((applyCell m (x, y) g).getD r []).getD c 2 =
      if writesTo m x y r c then 0 else (g.getD r []).getD c 2 := by
  have hrow0 : (g.getD (2*y) []).length = (g.getD 0 []).length := hrow _ (by omega)
  have hrow1 : (g.getD (2*y+1) []).length = (g.getD 0 []).length := hrow _ (by omega)
  have hrow2 : (g.getD (2*y+2) []).length = (g.getD 0 []).length := hrow _ (by omega)
  rcases hN : (m (x : ℤ) (y : ℤ)).walls.north with _ | _ <;>
  rcases hS : (m (x : ℤ) (y : ℤ)).walls.south with _ | _ <;>
  rcases hW : (m (x : ℤ) (y : ℤ)).walls.west with _ | _ <;>
  rcases hE : (m (x : ℤ) (y : ℤ)).walls.east with _ | _ <;>
    simp only [applyCell, writesTo, hN, hS, hW, hE, eq_self_iff_true, true_and,
      Bool.true_eq_false, false_and, false_or, or_false, reduceIte, if_true, if_false] <;>
    simp only [set2_get, set2_length, set2_row_length, Nat.add_sub_cancel,
      hrow0, hrow1, hrow2] <;>
    split_ifs <;> first | rfl | omega

theorem applyCell_length (m : CellFun) (p : ℕ × ℕ) (g : List (List ℕ)) :
    (applyCell m p g).length = g.length := by
  simp only [applyCell, apply_ite List.length, set2_length, ite_self]

theorem applyCell_row_length (m : CellFun) (p : ℕ × ℕ) (g : List (List ℕ)) (i : ℕ) :
    ((applyCell m p g).getD i []).length = (g.getD i []).length := by
  simp only [applyCell, apply_ite (fun gg : List (List ℕ) => ((gg.getD i []).length)),
    set2_row_length, ite_self]

theorem foldl_applyCell_length (m : CellFun) (l : List (ℕ × ℕ)) :
    ∀ g : List (List ℕ), (l.foldl (fun g p => applyCell m p g) g).length = g.length := by
  induction l with
  | nil => exact fun _ => rfl
  | cons p rest ih =>
    intro g
    rw [List.foldl_cons, ih, applyCell_length]

theorem foldl_applyCell_row_length (m : CellFun) (l : List (ℕ × ℕ)) (i : ℕ) :
    ∀ g : List (List ℕ),
      ((l.foldl (fun g p => applyCell m p g) g).getD i []).length =
        (g.getD i []).length := by
  induction l with
  | nil => exact fun _ => rfl
  | cons p rest ih =>
    intro g
    rw [List.foldl_cons, ih, applyCell_row_length]

theorem foldl_applyCell_get (m : CellFun) (l : List (ℕ × ℕ)) :
    ∀ g : List (List ℕ),
      (∀ i, i < g.length → (g.getD i []).length = (g.getD 0 []).length) →
      (∀ p ∈ l, 2 * p.2 + 2 < g.length ∧ 2 * p.1 + 2 < (g.getD 0 []).length) →
      ∀ r c, ((l.foldl (fun g p => applyCell m p g) g).getD r []).getD c 2 =
        if ∃ p ∈ l, writesTo m p.1 p.2 r c then 0 else (g.getD r []).getD c 2 := by
  induction l with
  | nil =>
    intro g _ _ r c
    simp
  | cons p rest ih =>
    obtain ⟨px, py⟩ := p
    intro g hrow hmem r c
    rw [List.foldl_cons]
    have hrow' : ∀ i, i < (applyCell m (px, py) g).length →
        ((applyCell m (px, py) g).getD i []).length =
          ((applyCell m (px, py) g).getD 0 []).length := by
      intro i hi
      rw [applyCell_row_length, applyCell_row_length]
      exact hrow i (by rwa [applyCell_length] at hi)
    have hmem' : ∀ q ∈ rest, 2 * q.2 + 2 < (applyCell m (px, py) g).length ∧
        2 * q.1 + 2 < ((applyCell m (px, py) g).getD 0 []).length := by
      intro q hq
      rw [applyCell_length, applyCell_row_length]
      exact hmem q (List.mem_cons_of_mem _ hq)
    rw [ih (applyCell m (px, py) g) hrow' hmem' r c]
    have hp := hmem (px, py) (List.mem_cons_self _ _)
    by_cases hex : ∃ q ∈ rest, writesTo m q.1 q.2 r c
    · rw [if_pos hex]
      obtain ⟨q, hq, hwq⟩ := hex
      rw [if_pos ⟨q, List.mem_cons_of_mem _ hq, hwq⟩]
    · rw [if_neg hex, applyCell_get m px py g hrow hp.1 hp.2 r c]
      by_cases hw : writesTo m px py r c
      · rw [if_pos hw, if_pos ⟨(px, py), List.mem_cons_self _ _, hw⟩]
      · rw [if_neg hw, if_neg]
        rintro ⟨q, hq, hwq⟩
        rcases List.mem_cons.mp hq with rfl | hq'
        · exact hw hwq
        · exact hex ⟨q, hq', hwq⟩

theorem mem_cellList (w h : ℕ) (p : ℕ × ℕ) :
    p ∈ cellList w h ↔ p.1 < w ∧ p.2 < h := by
  obtain ⟨a, b⟩ := p
  simp only [cellList, List.mem_flatMap, List.mem_map, List.mem_range]
  constructor
  · rintro ⟨y, hy, x, hx, he⟩
    obtain ⟨rfl, rfl⟩ := Prod.mk.injEq .. ▸ he
    exact ⟨hx, hy⟩
  · rintro ⟨ha, hb⟩
    exact ⟨b, hb, a, ha, rfl⟩

theorem mazeToGrid_length (m : CellFun) (w h : ℕ) :
    (mazeToGrid m w h).length = h * 2 + 1 := by
  unfold mazeToGrid
  rw [foldl_applyCell_length, List.length_replicate]

theorem mazeToGrid_row_length (m : CellFun) (w h i : ℕ) (hi : i < h * 2 + 1) :
    ((mazeToGrid m w h).getD i []).length = w * 2 + 1 := by
  unfold mazeToGrid
  rw [foldl_applyCell_row_length, getD_replicate _ _ _ i (by omega),
    List.length_replicate]

theorem mazeToGrid_get (m : CellFun) (w h r c : ℕ) (hr : r < h * 2 + 1)
    (hc : c < w * 2 + 1) :
    ((mazeToGrid m w h).getD r []).getD c 2 =
      if ∃ x, x < w ∧ ∃ y, y < h ∧ writesTo m x y r c then 0 else 1 := by
  unfold mazeToGrid
  rw [foldl_applyCell_get m (cellList w h) _
    (by
      intro i hi
      rw [List.length_replicate] at hi
      rw [getD_replicate _ _ _ i hi, getD_replicate _ _ _ 0 (by omega)])
    (by
      intro p hp
      obtain ⟨h1, h2⟩ := (mem_cellList w h p).mp hp
      rw [List.length_replicate, getD_replicate _ _ _ 0 (by omega), List.length_replicate]
      omega)
    r c]
  have he : (∃ p ∈ cellList w h, writesTo m p.1 p.2 r c) ↔
      (∃ x, x < w ∧ ∃ y, y < h ∧ writesTo m x y r c) := by
    constructor
    · rintro ⟨p, hp, hwp⟩
      obtain ⟨h1, h2⟩ := (mem_cellList w h p).mp hp
      exact ⟨p.1, h1, p.2, h2, hwp⟩
    · rintro ⟨x, hx, y, hy, hwp⟩
      exact ⟨(x, y), (mem_cellList w h (x, y)).mpr ⟨hx, hy⟩, hwp⟩
  rw [if_congr he rfl rfl, getD_replicate _ _ _ r hr, getD_replicate _ _ _ c hc]

/-- C5: for every generated maze lattice of size `w × h`, `mazeToGrid`
returns a grid of `h*2+1` rows, each of `w*2+1` columns, whose entire outer
boundary (row 0, row max, column 0, column max) is WALL (1). -/
theorem mazeToGrid_dims_border (w h : ℕ) (hw : 1 ≤ w) (hh : 1 ≤ h) (rng : ℕ → ℕ) :
    (mazeToGrid (generateMazeCore w h rng) w h).length = h * 2 + 1 ∧
    (∀ i, i < h * 2 + 1 →
      ((mazeToGrid (generateMazeCore w h rng) w h).getD i []).length = w * 2 + 1) ∧
    (∀ r c, r < h * 2 + 1 → c < w * 2 + 1 →
      (r = 0 ∨ r = h * 2 ∨ c = 0 ∨ c = w * 2) →
      ((mazeToGrid (generateMazeCore w h rng) w h).getD r []).getD c 2 = 1) := by
  refine ⟨mazeToGrid_length _ _ _, fun i hi => mazeToGrid_row_length _ _ _ i hi, ?_⟩
  intro r c hr hc hb
  rw [mazeToGrid_get _ _ _ r c hr hc, if_neg]
  rintro ⟨x, hx, y, hy, hwrite⟩
  have hbx := generateMazeCore_borderIntact w h hw hh rng (x : ℤ) (y : ℤ)
    ⟨Int.ofNat_nonneg x, by exact_mod_cast hx, Int.ofNat_nonneg y, by exact_mod_cast hy⟩
  rcases hwrite with ⟨h1, h2⟩ | ⟨hn, h1, h2⟩ | ⟨hs, h1, h2⟩ | ⟨hwf, h1, h2⟩ | ⟨hef, h1, h2⟩
  · omega
  · have hy0 : y = 0 := by omega
    subst hy0
    have := hbx.1 (by norm_num)
    rw [Walls.get_north] at this
    rw [this] at hn
    exact Bool.true_eq_false.mp hn
  · have hyh : y = h - 1 := by omega
    have := hbx.2.1 (by omega)
    rw [Walls.get_south] at this
    rw [this] at hs
    exact Bool.true_eq_false.mp hs
  · have hx0 : x = 0 := by omega
    subst hx0
    have := hbx.2.2.1 (by norm_num)
    rw [Walls.get_west] at this
    rw [this] at hwf
    exact Bool.true_eq_false.mp hwf
  · have hxw : x = w - 1 := by omega
    have := hbx.2.2.2 (by omega)
    rw [Walls.get_east] at this
    rw [this] at hef
    exact Bool.true_eq_false.mp hef

/-- Witness for C5 on the 1×1 maze: a 3×3 grid with WALL border. -/
theorem mazeToGrid_dims_border_witness :
    (mazeToGrid (generateMazeCore 1 1 fun _ => 0) 1 1).length = 1 * 2 + 1 ∧
    (∀ i, i < 1 * 2 + 1 →
      ((mazeToGrid (generateMazeCore 1 1 fun _ => 0) 1 1).getD i []).length = 1 * 2 + 1) ∧
    (∀ r c, r < 1 * 2 + 1 → c < 1 * 2 + 1 →
      (r = 0 ∨ r = 1 * 2 ∨ c = 0 ∨ c = 1 * 2) →
      ((mazeToGrid (generateMazeCore 1 1 fun _ => 0) 1 1).getD r []).getD c 2 = 1) :=
  mazeToGrid_dims_border 1 1 (by norm_num) (by norm_num) (fun _ => 0)

/-- C10: in every generated grid both landmark cells are OPEN: the start
tile (1, 1) and the exit tile (2·width − 1, 2·height − 1) hold value 0, so
the landmarks are traversable in every stage. -/
theorem landmarks_open (w h : ℕ) (hw : 1 ≤ w) (hh : 1 ≤ h) (rng : ℕ → ℕ) :
    ((mazeToGrid (generateMazeCore w h rng) w h).getD 1 []).getD 1 2 = 0 ∧
    ((mazeToGrid (generateMazeCore w h rng) w h).getD (2 * h - 1) []).getD
      (2 * w - 1) 2 = 0 := by
  constructor
  · rw [mazeToGrid_get _ _ _ 1 1 (by omega) (by omega)]
    rw [if_pos ⟨0, hw, 0, hh, Or.inl ⟨by omega, by omega⟩⟩]
  · rw [mazeToGrid_get _ _ _ (2 * h - 1) (2 * w - 1) (by omega) (by omega)]
    rw [if_pos ⟨w - 1, by omega, h - 1, by omega, Or.inl ⟨by omega, by omega⟩⟩]

/-- Witness for C10 on the 1×1 maze, where start and exit coincide. -/
theorem landmarks_open_witness :
    ((mazeToGrid (generateMazeCore 1 1 fun _ => 0) 1 1).getD 1 []).getD 1 2 = 0 ∧
    ((mazeToGrid (generateMazeCore 1 1 fun _ => 0) 1 1).getD (2 * 1 - 1) []).getD
      (2 * 1 - 1) 2 = 0 :=
  landmarks_open 1 1 (by norm_num) (by norm_num) (fun _ => 0)

/-- If both dimensions are positive, `generateMaze` returns the carved
lattice. -/
theorem generateMaze_pos (width height : ℤ) (rng : ℕ → ℕ) (hw : 0 < width)
    (hh : 0 < height) :
    generateMaze width height rng =
      .ok (generateMazeCore width.toNat height.toNat rng) := by
  simp [generateMaze, hw, hh]

/-- C7: for every width ≤ 0 or height ≤ 0 the maze generator fails fast —
the call throws (modelled as `Except.error`) instead of returning a
degenerate lattice. -/
theorem generateMaze_rejects_nonpositive (width height : ℤ) (rng : ℕ → ℕ)
    (h : width ≤ 0 ∨ height ≤ 0) :
    generateMaze width height rng =
      .error "TypeError: cannot read properties of undefined" := by
  unfold generateMaze
  rw [if_neg]
  rintro ⟨h1, h2⟩
  rcases h with h | h <;> omega

/-- Witness for C7 at width 0, height 5. -/
theorem generateMaze_rejects_nonpositive_witness :
    ((0 : ℤ) ≤ 0 ∨ (5 : ℤ) ≤ 0) ∧
      generateMaze 0 5 (fun _ => 0) =
        .error "TypeError: cannot read properties of undefined" :=
  ⟨Or.inl (by decide),
    generateMaze_rejects_nonpositive 0 5 (fun _ => 0) (Or.inl (by decide))⟩

/-- The landmark latch does not move the walk. -/
theorem latch_mapX (cfg : RayCfg) (st : DDAState) :
    (latchLandmarks cfg st).mapX = st.mapX := by
  unfold latchLandmarks
  split <;> rfl

/-- The landmark latch does not move the walk. -/
theorem latch_mapY (cfg : RayCfg) (st : DDAState) :
    (latchLandmarks cfg st).mapY = st.mapY := by
  unfold latchLandmarks
  split <;> rfl

/-- The landmark latch does not change the recorded side. -/
theorem latch_side (cfg : RayCfg) (st : DDAState) :
    (latchLandmarks cfg st).side = st.side := by
  unfold latchLandmarks
  split <;> rfl

/-- Termination of the DDA loop: with each step the walk moves one cell
monotonically along one axis, so the remaining-cells measure
`remX + remY` strictly decreases; fuel at least that measure suffices. -/
theorem ddaLoop_isSome (cfg : RayCfg) (hsx : cfg.stepX = 1 ∨ cfg.stepX = -1)
    (hsy : cfg.stepY = 1 ∨ cfg.stepY = -1) :
    ∀ (fuel : ℕ) (st : DDAState),
      1 ≤ (if cfg.stepX = 1 then (gridW cfg : ℤ) - st.mapX else st.mapX + 1) +
        (if cfg.stepY = 1 then (gridH cfg : ℤ) - st.mapY else st.mapY + 1) →
      (if cfg.stepX = 1 then (gridW cfg : ℤ) - st.mapX else st.mapX + 1) +
        (if cfg.stepY = 1 then (gridH cfg : ℤ) - st.mapY else st.mapY + 1) ≤ (fuel : ℤ) →
      (ddaLoop cfg fuel st).isSome := by
  intro fuel
  induction fuel with
  | zero =>
    intro st hge hle
    exfalso
    omega
  | succ n ih =>
    intro st hge hle
    simp only [ddaLoop]
    by_cases hoob : (ddaStep cfg st).mapX < 0 ∨ (gridW cfg : ℤ) ≤ (ddaStep cfg st).mapX ∨
        (ddaStep cfg st).mapY < 0 ∨ (gridH cfg : ℤ) ≤ (ddaStep cfg st).mapY
    · simp [hoob]
    · rw [if_neg hoob]
      by_cases hhit :
          gridAt cfg.grid (latchLandmarks cfg (ddaStep cfg st)).mapY
            (latchLandmarks cfg (ddaStep cfg st)).mapX = 1
      · simp [hhit]
      · rw [if_neg hhit]
        push_neg at hoob
        obtain ⟨ho1, ho2, ho3, ho4⟩ := hoob
        have hstep : ((ddaStep cfg st).mapX = st.mapX + cfg.stepX ∧
            (ddaStep cfg st).mapY = st.mapY) ∨
            ((ddaStep cfg st).mapX = st.mapX ∧
            (ddaStep cfg st).mapY = st.mapY + cfg.stepY) := by
          unfold ddaStep
          split
          · exact Or.inl ⟨rfl, rfl⟩
          · exact Or.inr ⟨rfl, rfl⟩
        apply ih
        · rw [latch_mapX, latch_mapY]
          rcases hsx with h1 | h1 <;> rcases hsy with h2 | h2 <;> simp [h1, h2] <;> omega
        · rw [latch_mapX, latch_mapY]
          rcases hstep with ⟨e1, e2⟩ | ⟨e1, e2⟩ <;>
            rcases hsx with h1 | h1 <;> rcases hsy with h2 | h2 <;>
            rw [e1, e2] <;> simp only [h1, h2] at hle ⊢ <;> simp at hle ⊢ <;> omega

/-- Every result of the DDA loop whose distance is the infinite sentinel is
the fully default record: side 0 and both landmark flags false (the
out-of-bounds return at src/maze.js line 355 builds a fresh object). -/
theorem ddaLoop_none_default (cfg : RayCfg) :
    ∀ (fuel : ℕ) (st : DDAState) (r : RayRes),
      ddaLoop cfg fuel st = some r → r.dist = none → r = ⟨none, 0, false, false⟩ := by
  intro fuel
  induction fuel with
  | zero =>
    intro st r h
    simp [ddaLoop] at h
  | succ n ih =>
    intro st r h hd
    simp only [ddaLoop] at h
    split at h
    · exact (Option.some_inj.mp h).symm
    · split at h
      · rw [← Option.some_inj.mp h] at hd
        simp at hd
      · exact ih _ _ h hd

/-- Non-negativity of the perpendicular distance at a wall hit: the walk
only moves in the fixed step direction, so the signed offset of the hit
cell from the origin has the same sign as the direction component it is
divided by. -/
theorem ddaLoop_dist_nonneg (cfg : RayCfg)
    (hdx : (cfg.stepX = 1 ∧ 0 ≤ cfg.dirX) ∨ (cfg.stepX = -1 ∧ cfg.dirX < 0))
    (hdy : (cfg.stepY = 1 ∧ 0 ≤ cfg.dirY) ∨ (cfg.stepY = -1 ∧ cfg.dirY < 0)) :
    ∀ (fuel : ℕ) (st : DDAState) (r : RayRes),
      (cfg.stepX = 1 → ⌊cfg.posX⌋ ≤ st.mapX) →
      (cfg.stepX = -1 → st.mapX ≤ ⌊cfg.posX⌋) →
      (cfg.stepY = 1 → ⌊cfg.posY⌋ ≤ st.mapY) →
      (cfg.stepY = -1 → st.mapY ≤ ⌊cfg.posY⌋) →
      ddaLoop cfg fuel st = some r → ∀ d, r.dist = some d → 0 ≤ d := by
  intro fuel
  induction fuel with
  | zero =>
    intro st r _ _ _ _ h
    simp [ddaLoop] at h
  | succ n ih =>
    intro st r hx1 hx2 hy1 hy2 h d hd
    have hstep : ((ddaStep cfg st).mapX = st.mapX + cfg.stepX ∧
        (ddaStep cfg st).mapY = st.mapY ∧ (ddaStep cfg st).side = 0) ∨
        ((ddaStep cfg st).mapX = st.mapX ∧
        (ddaStep cfg st).mapY = st.mapY + cfg.stepY ∧ (ddaStep cfg st).side = 1) := by
      unfold ddaStep
      split
      · exact Or.inl ⟨rfl, rfl, rfl⟩
      · exact Or.inr ⟨rfl, rfl, rfl⟩
    simp only [ddaLoop] at h
    split at h
    · rw [← Option.some_inj.mp h] at hd
      simp at hd
    · split at h
      · -- wall hit: the returned distance is perpDist at the stepped state
        rw [← Option.some_inj.mp h] at hd
        simp only [Option.some_inj] at hd
        rw [← hd]
        have hside := latch_side cfg (ddaStep cfg st)
        have hmx := latch_mapX cfg (ddaStep cfg st)
        have hmy := latch_mapY cfg (ddaStep cfg st)
        unfold perpDist
        rcases hstep with ⟨e1, e2, e3⟩ | ⟨e1, e2, e3⟩
        · rw [if_pos (by rw [hside, e3])]
          rw [hmx, e1]
          rcases hdx with ⟨hs, hdir⟩ | ⟨hs, hdir⟩
          · rw [hs]
            have h1 : ⌊cfg.posX⌋ ≤ st.mapX := hx1 hs
            have h2 : cfg.posX < (⌊cfg.posX⌋ : ℚ) + 1 := Int.lt_floor_add_one _
            apply div_nonneg
            · push_cast
              have : ((⌊cfg.posX⌋ : ℚ) : ℚ) ≤ (st.mapX : ℚ) := by exact_mod_cast h1
              nlinarith
            · split
              · norm_num
              · rcases lt_or_eq_of_le hdir with h | h
                · linarith
                · simp [← h] at *
          · rw [hs]
            have h1 : st.mapX ≤ ⌊cfg.posX⌋ := hx2 hs
            have h2 : (⌊cfg.posX⌋ : ℚ) ≤ cfg.posX := Int.floor_le _
            rw [if_neg (by intro h0; rw [h0] at hdir; exact absurd hdir (lt_irrefl 0))]
            apply div_nonneg_of_nonpos _ (le_of_lt hdir)
            have : ((st.mapX : ℚ) : ℚ) ≤ (⌊cfg.posX⌋ : ℚ) := by exact_mod_cast h1
            push_cast
            nlinarith
        · rw [if_neg (by rw [hside, e3]; norm_num)]
          rw [hmy, e2]
          rcases hdy with ⟨hs, hdir⟩ | ⟨hs, hdir⟩
          · rw [hs]
            have h1 : ⌊cfg.posY⌋ ≤ st.mapY := hy1 hs
            have h2 : cfg.posY < (⌊cfg.posY⌋ : ℚ) + 1 := Int.lt_floor_add_one _
            apply div_nonneg
            · push_cast
              have : ((⌊cfg.posY⌋ : ℚ) : ℚ) ≤ (st.mapY : ℚ) := by exact_mod_cast h1
              nlinarith
            · split
              · norm_num
              · rcases lt_or_eq_of_le hdir with h | h
                · linarith
                · simp [← h] at *
          · rw [hs]
            have h1 : st.mapY ≤ ⌊cfg.posY⌋ := hy2 hs
            have h2 : (⌊cfg.posY⌋ : ℚ) ≤ cfg.posY := Int.floor_le _
            rw [if_neg (by intro h0; rw [h0] at hdir; exact absurd hdir (lt_irrefl 0))]
            apply div_nonneg_of_nonpos _ (le_of_lt hdir)
            have : ((st.mapY : ℚ) : ℚ) ≤ (⌊cfg.posY⌋ : ℚ) := by exact_mod_cast h1
            push_cast
            nlinarith
      · -- no hit: recurse, the monotonicity invariants are maintained
        refine ih _ _ ?_ ?_ ?_ ?_ h d hd <;>
          simp only [latch_mapX, latch_mapY] <;> intro hs
        · rcases hstep with ⟨e1, _, _⟩ | ⟨e1, _, _⟩
          · rw [e1, hs]
            have := hx1 hs
            omega
          · rw [e1]
            exact hx1 hs
        · rcases hstep with ⟨e1, _, _⟩ | ⟨e1, _, _⟩
          · rw [e1, hs]
            have := hx2 hs
            omega
          · rw [e1]
            exact hx2 hs
        · rcases hstep with ⟨_, e2, _⟩ | ⟨_, e2, _⟩
          · rw [e2]
            exact hy1 hs
          · rw [e2, hs]
            have := hy1 hs
            omega
        · rcases hstep with ⟨_, e2, _⟩ | ⟨_, e2, _⟩
          · rw [e2]
            exact hy2 hs
          · rw [e2, hs]
            have := hy2 hs
            omega

/-- C2: for every grid, every origin whose map cell lies strictly inside the
grid, and every ray direction (covering `cos`/`sin` of every angle),
`castRay` run with fuel `gridWidth + gridHeight` terminates — the DDA takes
at most that many steps — returning either a finite non-negative distance
(wall hit) or exactly the infinite sentinel (walk left the grid). -/
theorem castRay_terminates (grid : List (List ℕ)) (sX sY eX eY : ℤ)
    (posX posY dirX dirY : ℚ)
    (h1 : 0 ≤ ⌊posX⌋) (h2 : ⌊posX⌋ < ((grid.getD 0 []).length : ℤ))
    (h3 : 0 ≤ ⌊posY⌋) (h4 : ⌊posY⌋ < (grid.length : ℤ)) :
    ∃ r, castRay grid sX sY eX eY posX posY dirX dirY
        ((grid.getD 0 []).length + grid.length) = some r ∧
      (r.dist = none ∨ ∃ d, r.dist = some d ∧ 0 ≤ d) := by
  have hsx : (mkRayCfg grid sX sY eX eY posX posY dirX dirY).stepX = 1 ∨
      (mkRayCfg grid sX sY eX eY posX posY dirX dirY).stepX = -1 := by
    by_cases hd : dirX < 0
    · right
      simp [mkRayCfg, hd]
    · left
      simp [mkRayCfg, hd]
  have hsy : (mkRayCfg grid sX sY eX eY posX posY dirX dirY).stepY = 1 ∨
      (mkRayCfg grid sX sY eX eY posX posY dirX dirY).stepY = -1 := by
    by_cases hd : dirY < 0
    · right
      simp [mkRayCfg, hd]
    · left
      simp [mkRayCfg, hd]
  have hsome := ddaLoop_isSome (mkRayCfg grid sX sY eX eY posX posY dirX dirY) hsx hsy
    ((grid.getD 0 []).length + grid.length)
    (initDDA (mkRayCfg grid sX sY eX eY posX posY dirX dirY))
    (by
      show 1 ≤ (if (mkRayCfg grid sX sY eX eY posX posY dirX dirY).stepX = 1 then
          ((grid.getD 0 []).length : ℤ) - ⌊posX⌋ else ⌊posX⌋ + 1) +
        (if (mkRayCfg grid sX sY eX eY posX posY dirX dirY).stepY = 1 then
          (grid.length : ℤ) - ⌊posY⌋ else ⌊posY⌋ + 1)
      rcases hsx with h | h <;> rcases hsy with h' | h' <;> rw [h, h']
      · rw [if_pos rfl, if_pos rfl]
        omega
      · rw [if_pos rfl, if_neg (by decide)]
        omega
      · rw [if_neg (by decide), if_pos rfl]
        omega
      · rw [if_neg (by decide), if_neg (by decide)]
        omega)
    (by
      show (if (mkRayCfg grid sX sY eX eY posX posY dirX dirY).stepX = 1 then
          ((grid.getD 0 []).length : ℤ) - ⌊posX⌋ else ⌊posX⌋ + 1) +
        (if (mkRayCfg grid sX sY eX eY posX posY dirX dirY).stepY = 1 then
          (grid.length : ℤ) - ⌊posY⌋ else ⌊posY⌋ + 1) ≤
        (((grid.getD 0 []).length + grid.length : ℕ) : ℤ)
      rcases hsx with h | h <;> rcases hsy with h' | h' <;> rw [h, h']
      · rw [if_pos rfl, if_pos rfl]
        omega
      · rw [if_pos rfl, if_neg (by decide)]
        omega
      · rw [if_neg (by decide), if_pos rfl]
        omega
      · rw [if_neg (by decide), if_neg (by decide)]
        omega)
  obtain ⟨r, hr⟩ := Option.isSome_iff_exists.mp hsome
  refine ⟨r, hr, ?_⟩
  rcases hdist : r.dist with _ | d
  · exact Or.inl rfl
  · refine Or.inr ⟨d, rfl, ?_⟩
    have hdx : ((mkRayCfg grid sX sY eX eY posX posY dirX dirY).stepX = 1 ∧
        0 ≤ (mkRayCfg grid sX sY eX eY posX posY dirX dirY).dirX) ∨
        ((mkRayCfg grid sX sY eX eY posX posY dirX dirY).stepX = -1 ∧
        (mkRayCfg grid sX sY eX eY posX posY dirX dirY).dirX < 0) := by
      by_cases hd : dirX < 0
      · right
        exact ⟨by simp [mkRayCfg, hd], hd⟩
      · left
        exact ⟨by simp [mkRayCfg, hd], not_lt.mp hd⟩
    have hdy : ((mkRayCfg grid sX sY eX eY posX posY dirX dirY).stepY = 1 ∧
        0 ≤ (mkRayCfg grid sX sY eX eY posX posY dirX dirY).dirY) ∨
        ((mkRayCfg grid sX sY eX eY posX posY dirX dirY).stepY = -1 ∧
        (mkRayCfg grid sX sY eX eY posX posY dirX dirY).dirY < 0) := by
      by_cases hd : dirY < 0
      · right
        exact ⟨by simp [mkRayCfg, hd], hd⟩
      · left
        exact ⟨by simp [mkRayCfg, hd], not_lt.mp hd⟩
    exact ddaLoop_dist_nonneg _ hdx hdy _ _ r
      (fun _ => le_of_eq rfl) (fun _ => le_of_eq rfl)
      (fun _ => le_of_eq rfl) (fun _ => le_of_eq rfl) hr d hdist

/-- Witness for C2: the single-cell 3×3 grid, origin at its centre, angle 0
(direction (1, 0)); the ray terminates with a finite non-negative hit. -/
theorem castRay_terminates_witness :
    (0 ≤ ⌊(3/2 : ℚ)⌋ ∧
      ⌊(3/2 : ℚ)⌋ < ((([[1, 1, 1], [1, 0, 1], [1, 1, 1]] : List (List ℕ)).getD 0 []).length : ℤ) ∧
      ⌊(3/2 : ℚ)⌋ < (([[1, 1, 1], [1, 0, 1], [1, 1, 1]] : List (List ℕ)).length : ℤ)) ∧
    ∃ r, castRay [[1, 1, 1], [1, 0, 1], [1, 1, 1]] 1 1 1 1 (3/2) (3/2) 1 0
        ((([[1, 1, 1], [1, 0, 1], [1, 1, 1]] : List (List ℕ)).getD 0 []).length +
          ([[1, 1, 1], [1, 0, 1], [1, 1, 1]] : List (List ℕ)).length) = some r ∧
      (r.dist = none ∨ ∃ d, r.dist = some d ∧ 0 ≤ d) := by
  have hf : ⌊(3/2 : ℚ)⌋ = 1 := by rw [Int.floor_eq_iff] <;> norm_num
  refine ⟨⟨by rw [hf]; norm_num, by rw [hf]; norm_num, by rw [hf]; norm_num⟩, ?_⟩
  exact castRay_terminates _ 1 1 1 1 _ _ 1 0
    (by rw [hf]; norm_num) (by rw [hf]; norm_num) (by rw [hf]; norm_num) (by rw [hf]; norm_num)

/-- C3 counterexample: the cast origin (−1/2, 3/2) lies outside the 3×3
grid (its map column is −1), the angle is 0, yet `castRay` returns the
finite distance 1/2: the first DDA step enters the grid at column 0 and
hits that border wall, so an out-of-bounds origin does *not* imply an
infinite result. -/
theorem castRay_oob_origin_finite :
    ⌊(-1/2 : ℚ)⌋ < 0 ∧
      castRay [[1, 1, 1], [1, 0, 1], [1, 1, 1]] 1 1 1 1 (-1/2) (3/2) 1 0 6 =
        some ⟨some (1/2), 0, false, false⟩ := by
  have h1 : ⌊(-1/2 : ℚ)⌋ = -1 := by rw [Int.floor_eq_iff] <;> norm_num
  have h2 : ⌊(3/2 : ℚ)⌋ = 1 := by rw [Int.floor_eq_iff] <;> norm_num
  constructor
  · rw [h1]
    norm_num
  · norm_num [castRay, mkRayCfg, initDDA, ddaLoop, ddaStep, latchLandmarks, perpDist,
      gridAt, gridW, gridH, h1, h2]

/-- C3 (amended): whenever the DDA walk leaves the grid bounds mid-ray,
`castRay` returns distance = Infinity with the default side 0 and both
landmark flags false — even if a landmark cell had been entered earlier —
equivalently, every infinite-distance result is the fully default record.
(The original claim additionally asserted that an out-of-bounds *origin*
always yields Infinity; `castRay_oob_origin_finite` refutes that part.) -/
theorem castRay_inf_default (grid : List (List ℕ)) (sX sY eX eY : ℤ)
    (posX posY dirX dirY : ℚ) (fuel : ℕ) (r : RayRes)
    (h : castRay grid sX sY eX eY posX posY dirX dirY fuel = some r)
    (hd : r.dist = none) : r = ⟨none, 0, false, false⟩ :=
  ddaLoop_none_default _ fuel _ r h hd

/-- Witness for C3 (amended): in an all-open 2×2 grid the origin sits in
the start cell (latching `startSeen` before the loop), the ray exits the
grid on its first step, and the returned record is the default one — the
earlier latch is dropped. -/
theorem castRay_inf_default_witness :
    castRay [[0, 0], [0, 0]] 1 1 1 1 (3/2) (3/2) 1 0 4 =
        some ⟨none, 0, false, false⟩ ∧
      (⟨none, 0, false, false⟩ : RayRes) = ⟨none, 0, false, false⟩ := by
  have hf : ⌊(3/2 : ℚ)⌋ = 1 := by rw [Int.floor_eq_iff] <;> norm_num
  have hrun : castRay [[0, 0], [0, 0]] 1 1 1 1 (3/2) (3/2) 1 0 4 =
      some ⟨none, 0, false, false⟩ := by
    norm_num [castRay, mkRayCfg, initDDA, ddaLoop, ddaStep, latchLandmarks, perpDist,
      gridAt, gridW, gridH, hf]
  exact ⟨hrun, castRay_inf_default _ 1 1 1 1 (3/2) (3/2) 1 0 4 _ hrun rfl⟩

theorem ddaStep_startSeen (cfg : RayCfg) (st : DDAState) :
    (ddaStep cfg st).startSeen = st.startSeen := by
  unfold ddaStep
  split <;> rfl

theorem ddaStep_exitSeen (cfg : RayCfg) (st : DDAState) :
    (ddaStep cfg st).exitSeen = st.exitSeen := by
  unfold ddaStep
  split <;> rfl

theorem latch_startSeen (cfg : RayCfg) (st : DDAState) :
    (latchLandmarks cfg st).startSeen =
      if gridAt cfg.grid st.mapY st.mapX = 0 ∧ st.mapX = cfg.startGridX ∧
          st.mapY = cfg.startGridY then true
      else st.startSeen := by
  unfold latchLandmarks
  by_cases h1 : gridAt cfg.grid st.mapY st.mapX = 0
  · rw [if_pos h1]
    dsimp only
    by_cases h2 : st.mapX = cfg.startGridX ∧ st.mapY = cfg.startGridY
    · rw [if_pos h2, if_pos ⟨h1, h2⟩]
    · rw [if_neg h2, if_neg fun hc => h2 hc.2]
  · rw [if_neg h1, if_neg fun hc => h1 hc.1]

theorem latch_exitSeen (cfg : RayCfg) (st : DDAState) :
    (latchLandmarks cfg st).exitSeen =
      if gridAt cfg.grid st.mapY st.mapX = 0 ∧ st.mapX = cfg.exitX ∧
          st.mapY = cfg.exitY then true
      else st.exitSeen := by
  unfold latchLandmarks
  by_cases h1 : gridAt cfg.grid st.mapY st.mapX = 0
  · rw [if_pos h1]
    dsimp only
    by_cases h2 : st.mapX = cfg.exitX ∧ st.mapY = cfg.exitY
    · rw [if_pos h2, if_pos ⟨h1, h2⟩]
    · rw [if_neg h2, if_neg fun hc => h2 hc.2]
  · rw [if_neg h1, if_neg fun hc => h1 hc.1]

/-- The instrumented loop computes the same result as the plain loop. -/
theorem ddaLoopT_fst (cfg : RayCfg) :
    ∀ (fuel : ℕ) (st : DDAState),
      (ddaLoopT cfg fuel st).map Prod.fst = ddaLoop cfg fuel st := by
  intro fuel
  induction fuel with
  | zero => intro st; rfl
  | succ f ih =>
    intro st
    simp only [ddaLoopT, ddaLoop]
    split
    · rfl
    · split
      · rfl
      · rcases hrec : ddaLoopT cfg f (latchLandmarks cfg (ddaStep cfg st)) with _ | p
        · have := ih (latchLandmarks cfg (ddaStep cfg st))
          rw [hrec] at this
          exact this
        · obtain ⟨r', tr'⟩ := p
          have := ih (latchLandmarks cfg (ddaStep cfg st))
          rw [hrec] at this
          exact this

/-- Trace/flag discipline of the DDA loop: a latched flag persists to a wall
hit; a flag is reported `true` whenever the walk entered the matching
landmark cell as an OPEN cell (or started latched); and if the landmark was
never on the path and the flag started false, it is reported `false`. -/
theorem ddaLoopT_flags (cfg : RayCfg) :
    ∀ (fuel : ℕ) (st : DDAState) (r : RayRes) (tr : List (ℤ × ℤ)),
      ddaLoopT cfg fuel st = some (r, tr) → r.dist ≠ none →
      ((st.startSeen = true → r.startSeen = true) ∧
       ((cfg.startGridX, cfg.startGridY) ∈ tr ∧
         gridAt cfg.grid cfg.startGridY cfg.startGridX = 0 → r.startSeen = true) ∧
       (st.startSeen = false ∧ (cfg.startGridX, cfg.startGridY) ∉ tr →
         r.startSeen = false) ∧
       (st.exitSeen = true → r.exitSeen = true) ∧
       ((cfg.exitX, cfg.exitY) ∈ tr ∧ gridAt cfg.grid cfg.exitY cfg.exitX = 0 →
         r.exitSeen = true) ∧
       (st.exitSeen = false ∧ (cfg.exitX, cfg.exitY) ∉ tr → r.exitSeen = false)) := by
  intro fuel
  induction fuel with
  | zero =>
    intro st r tr h
    simp [ddaLoopT] at h
  | succ f ih =>
    intro st r tr h hdist
    simp only [ddaLoopT] at h
    split at h
    · -- out of bounds: the distance is the sentinel, contradiction
      rw [Option.some_inj] at h
      injection h with h1 h2
      rw [← h1] at hdist
      exact absurd rfl hdist
    · split at h
      · -- wall hit after one more step
        rw [Option.some_inj] at h
        injection h with h1 h2
        subst h1
        subst h2
        refine ⟨?_, ?_, ?_, ?_, ?_, ?_⟩
        · intro hs
          show (latchLandmarks cfg (ddaStep cfg st)).startSeen = true
          rw [latch_startSeen]
          split
          · rfl
          · rw [ddaStep_startSeen]
            exact hs
        · rintro ⟨hmem, hopen⟩
          rw [List.mem_singleton, Prod.mk.injEq] at hmem
          obtain ⟨hmx, hmy⟩ := hmem
          rw [latch_mapX] at hmx
          rw [latch_mapY] at hmy
          show (latchLandmarks cfg (ddaStep cfg st)).startSeen = true
          rw [latch_startSeen, if_pos ⟨by rw [hmx, hmy] at hopen; exact hopen,
            hmx.symm, hmy.symm⟩]
        · rintro ⟨hfalse, hnotmem⟩
          show (latchLandmarks cfg (ddaStep cfg st)).startSeen = false
          rw [latch_startSeen, if_neg, ddaStep_startSeen]
          · exact hfalse
          · rintro ⟨_, hx, hy⟩
            exact hnotmem (by
              rw [List.mem_singleton, Prod.mk.injEq, latch_mapX, latch_mapY]
              exact ⟨hx.symm, hy.symm⟩)
        · intro hs
          show (latchLandmarks cfg (ddaStep cfg st)).exitSeen = true
          rw [latch_exitSeen]
          split
          · rfl
          · rw [ddaStep_exitSeen]
            exact hs
        · rintro ⟨hmem, hopen⟩
          rw [List.mem_singleton, Prod.mk.injEq] at hmem
          obtain ⟨hmx, hmy⟩ := hmem
          rw [latch_mapX] at hmx
          rw [latch_mapY] at hmy
          show (latchLandmarks cfg (ddaStep cfg st)).exitSeen = true
          rw [latch_exitSeen, if_pos ⟨by rw [hmx, hmy] at hopen; exact hopen,
            hmx.symm, hmy.symm⟩]
        · rintro ⟨hfalse, hnotmem⟩
          show (latchLandmarks cfg (ddaStep cfg st)).exitSeen = false
          rw [latch_exitSeen, if_neg, ddaStep_exitSeen]
          · exact hfalse
          · rintro ⟨_, hx, hy⟩
            exact hnotmem (by
              rw [List.mem_singleton, Prod.mk.injEq, latch_mapX, latch_mapY]
              exact ⟨hx.symm, hy.symm⟩)
      · -- continue walking
        rcases hrec : ddaLoopT cfg f (latchLandmarks cfg (ddaStep cfg st)) with _ | p
        · rw [hrec] at h
          simp at h
        · obtain ⟨r', tr'⟩ := p
          rw [hrec] at h
          rw [Option.some_inj] at h
          injection h with h1 h2
          subst h1
          subst h2
          have IH := ih _ r' tr' hrec hdist
          refine ⟨?_, ?_, ?_, ?_, ?_, ?_⟩
          · intro hs
            refine IH.1 ?_
            rw [latch_startSeen]
            split
            · rfl
            · rw [ddaStep_startSeen]
              exact hs
          · rintro ⟨hmem, hopen⟩
            rcases List.mem_cons.mp hmem with he | hmem'
            · refine IH.1 ?_
              rw [Prod.mk.injEq] at he
              obtain ⟨hmx, hmy⟩ := he
              rw [latch_mapX] at hmx
              rw [latch_mapY] at hmy
              rw [latch_startSeen, if_pos ⟨by rw [hmx, hmy] at hopen; exact hopen,
                hmx.symm, hmy.symm⟩]
            · exact IH.2.1 ⟨hmem', hopen⟩
          · rintro ⟨hfalse, hnotmem⟩
            refine IH.2.2.1 ⟨?_, fun hm => hnotmem (List.mem_cons_of_mem _ hm)⟩
            rw [latch_startSeen, if_neg, ddaStep_startSeen]
            · exact hfalse
            · rintro ⟨_, hx, hy⟩
              exact hnotmem (List.mem_cons.mpr (Or.inl (by
                rw [Prod.mk.injEq, latch_mapX, latch_mapY]
                exact ⟨hx.symm, hy.symm⟩)))
          · intro hs
            refine IH.2.2.2.1 ?_
            rw [latch_exitSeen]
            split
            · rfl
            · rw [ddaStep_exitSeen]
              exact hs
          · rintro ⟨hmem, hopen⟩
            rcases List.mem_cons.mp hmem with he | hmem'
            · refine IH.2.2.2.1 ?_
              rw [Prod.mk.injEq] at he
              obtain ⟨hmx, hmy⟩ := he
              rw [latch_mapX] at hmx
              rw [latch_mapY] at hmy
              rw [latch_exitSeen, if_pos ⟨by rw [hmx, hmy] at hopen; exact hopen,
                hmx.symm, hmy.symm⟩]
            · exact IH.2.2.2.2.1 ⟨hmem', hopen⟩
          · rintro ⟨hfalse, hnotmem⟩
            refine IH.2.2.2.2.2 ⟨?_, fun hm => hnotmem (List.mem_cons_of_mem _ hm)⟩
            rw [latch_exitSeen, if_neg, ddaStep_exitSeen]
            · exact hfalse
            · rintro ⟨_, hx, hy⟩
              exact hnotmem (List.mem_cons.mpr (Or.inl (by
                rw [Prod.mk.injEq, latch_mapX, latch_mapY]
                exact ⟨hx.symm, hy.symm⟩)))

/-- C6: for a fixed grid, a ray that hits a wall reports `startSeen = true`
whenever its DDA path entered the start cell as an OPEN cell before the hit
or its origin lies in the start cell — symmetrically for the exit cell and
`exitSeen` — and a ray that hits a wall with its origin in neither landmark
cell and whose path never entered the start or exit cell reports both flags
false. -/
theorem castRay_landmark_flags (grid : List (List ℕ)) (sX sY eX eY : ℤ)
    (posX posY dirX dirY : ℚ) (fuel : ℕ) (r : RayRes) (tr : List (ℤ × ℤ))
    (h : castRayT grid sX sY eX eY posX posY dirX dirY fuel = some (r, tr))
    (hhit : r.dist ≠ none) :
    ((⌊posX⌋ = sX ∧ ⌊posY⌋ = sY) → r.startSeen = true) ∧
    ((sX, sY) ∈ tr ∧ gridAt grid sY sX = 0 → r.startSeen = true) ∧
    ((⌊posX⌋ = eX ∧ ⌊posY⌋ = eY) → r.exitSeen = true) ∧
    ((eX, eY) ∈ tr ∧ gridAt grid eY eX = 0 → r.exitSeen = true) ∧
    ((¬(⌊posX⌋ = sX ∧ ⌊posY⌋ = sY)) ∧ (sX, sY) ∉ tr → r.startSeen = false) ∧
    ((¬(⌊posX⌋ = eX ∧ ⌊posY⌋ = eY)) ∧ (eX, eY) ∉ tr → r.exitSeen = false) := by
  have hloop := ddaLoopT_flags (mkRayCfg grid sX sY eX eY posX posY dirX dirY) fuel
    (initDDA (mkRayCfg grid sX sY eX eY posX posY dirX dirY)) r tr h hhit
  have hinit_s : (initDDA (mkRayCfg grid sX sY eX eY posX posY dirX dirY)).startSeen =
      if ⌊posX⌋ = sX ∧ ⌊posY⌋ = sY then true else false := rfl
  have hinit_e : (initDDA (mkRayCfg grid sX sY eX eY posX posY dirX dirY)).exitSeen =
      if ⌊posX⌋ = eX ∧ ⌊posY⌋ = eY then true else false := rfl
  refine ⟨?_, hloop.2.1, ?_, hloop.2.2.2.2.1, ?_, ?_⟩
  · intro ho
    exact hloop.1 (by rw [hinit_s, if_pos ho])
  · intro ho
    exact hloop.2.2.2.1 (by rw [hinit_e, if_pos ho])
  · rintro ⟨ho, hm⟩
    exact hloop.2.2.1 ⟨by rw [hinit_s, if_neg ho], hm⟩
  · rintro ⟨ho, hm⟩
    exact hloop.2.2.2.2.2 ⟨by rw [hinit_e, if_neg ho], hm⟩

theorem ddaLoopT_succ (cfg : RayCfg) (fuel : ℕ) (st : DDAState) :
    ddaLoopT cfg (fuel + 1) st =
      if (ddaStep cfg st).mapX < 0 ∨ (gridW cfg : ℤ) ≤ (ddaStep cfg st).mapX ∨
          (ddaStep cfg st).mapY < 0 ∨ (gridH cfg : ℤ) ≤ (ddaStep cfg st).mapY then
        some (⟨none, 0, false, false⟩, [])
      else if gridAt cfg.grid (latchLandmarks cfg (ddaStep cfg st)).mapY
          (latchLandmarks cfg (ddaStep cfg st)).mapX = 1 then
        some (⟨some (perpDist cfg (latchLandmarks cfg (ddaStep cfg st))),
          (latchLandmarks cfg (ddaStep cfg st)).side,
          (latchLandmarks cfg (ddaStep cfg st)).startSeen,
          (latchLandmarks cfg (ddaStep cfg st)).exitSeen⟩,
          [((latchLandmarks cfg (ddaStep cfg st)).mapX,
            (latchLandmarks cfg (ddaStep cfg st)).mapY)])
      else
        match ddaLoopT cfg fuel (latchLandmarks cfg (ddaStep cfg st)) with
        | none => none
        | some (r, tr) =>
          some (r, ((latchLandmarks cfg (ddaStep cfg st)).mapX,
            (latchLandmarks cfg (ddaStep cfg st)).mapY) :: tr) := rfl

/-- Concrete trace run for the C6 witness: a 2×1-cell maze corridor; the
origin sits in the start cell, the slightly downward ray crosses the
landmark cell (2, 1) and then hits the wall below the corridor. -/
theorem castRayT_corridor_run :
    castRayT [[1, 1, 1, 1, 1], [1, 0, 0, 0, 1], [1, 1, 1, 1, 1]] 1 1 2 1
        (3/2) (3/2) 1 (1/2) 4 =
      some (⟨some 1, 1, true, true⟩, [(2, 1), (2, 2)]) := by
  have hf : ⌊(3/2 : ℚ)⌋ = 1 := by rw [Int.floor_eq_iff] <;> norm_num
  have hcfg : mkRayCfg [[1, 1, 1, 1, 1], [1, 0, 0, 0, 1], [1, 1, 1, 1, 1]] 1 1 2 1
      (3/2) (3/2) 1 (1/2) =
      ⟨[[1, 1, 1, 1, 1], [1, 0, 0, 0, 1], [1, 1, 1, 1, 1]],
        1, 1, 2, 1, 3/2, 3/2, 1, 1/2, 1, 1, 1, 2⟩ := by
    norm_num [mkRayCfg]
  have hinit : initDDA ⟨[[1, 1, 1, 1, 1], [1, 0, 0, 0, 1], [1, 1, 1, 1, 1]],
      1, 1, 2, 1, 3/2, 3/2, 1, 1/2, 1, 1, 1, 2⟩ =
      ⟨1, 1, 1/2, 1, 0, true, false⟩ := by
    norm_num [initDDA, hf]
  have hstep1 : ddaStep ⟨[[1, 1, 1, 1, 1], [1, 0, 0, 0, 1], [1, 1, 1, 1, 1]],
      1, 1, 2, 1, 3/2, 3/2, 1, 1/2, 1, 1, 1, 2⟩ ⟨1, 1, 1/2, 1, 0, true, false⟩ =
      ⟨2, 1, 3/2, 1, 0, true, false⟩ := by
    norm_num [ddaStep]
  have hlatch1 : latchLandmarks ⟨[[1, 1, 1, 1, 1], [1, 0, 0, 0, 1], [1, 1, 1, 1, 1]],
      1, 1, 2, 1, 3/2, 3/2, 1, 1/2, 1, 1, 1, 2⟩ ⟨2, 1, 3/2, 1, 0, true, false⟩ =
      ⟨2, 1, 3/2, 1, 0, true, true⟩ := by
    norm_num [latchLandmarks, gridAt] <;> decide
  have hstep2 : ddaStep ⟨[[1, 1, 1, 1, 1], [1, 0, 0, 0, 1], [1, 1, 1, 1, 1]],
      1, 1, 2, 1, 3/2, 3/2, 1, 1/2, 1, 1, 1, 2⟩ ⟨2, 1, 3/2, 1, 0, true, true⟩ =
      ⟨2, 2, 3/2, 3, 1, true, true⟩ := by
    norm_num [ddaStep]
  have hlatch2 : latchLandmarks ⟨[[1, 1, 1, 1, 1], [1, 0, 0, 0, 1], [1, 1, 1, 1, 1]],
      1, 1, 2, 1, 3/2, 3/2, 1, 1/2, 1, 1, 1, 2⟩ ⟨2, 2, 3/2, 3, 1, true, true⟩ =
      ⟨2, 2, 3/2, 3, 1, true, true⟩ := by
    norm_num [latchLandmarks, gridAt] <;> decide
  have hrun2 : ddaLoopT ⟨[[1, 1, 1, 1, 1], [1, 0, 0, 0, 1], [1, 1, 1, 1, 1]],
      1, 1, 2, 1, 3/2, 3/2, 1, 1/2, 1, 1, 1, 2⟩ 3 ⟨2, 1, 3/2, 1, 0, true, true⟩ =
      some (⟨some 1, 1, true, true⟩, [(2, 2)]) := by
    have e3 : (3 : ℕ) = 2 + 1 := rfl
    rw [e3, ddaLoopT_succ, hstep2, hlatch2, if_neg (by norm_num [gridW, gridH]),
      if_pos (by norm_num [gridAt] <;> decide)]
    norm_num [perpDist]
  simp only [castRayT]
  rw [hcfg, hinit]
  have e4 : (4 : ℕ) = 3 + 1 := rfl
  rw [e4, ddaLoopT_succ, hstep1, hlatch1, if_neg (by norm_num [gridW, gridH]),
    if_neg (by norm_num [gridAt] <;> decide), hrun2]

/-- Witness for C6: on the corridor grid the origin-in-start ray that
crosses the designated landmark cell and hits a wall reports both flags
true. -/
theorem castRay_landmark_flags_witness :
    castRayT [[1, 1, 1, 1, 1], [1, 0, 0, 0, 1], [1, 1, 1, 1, 1]] 1 1 2 1
        (3/2) (3/2) 1 (1/2) 4 =
      some (⟨some 1, 1, true, true⟩, [(2, 1), (2, 2)]) ∧
    (⟨some 1, 1, true, true⟩ : RayRes).startSeen = true ∧
    (⟨some 1, 1, true, true⟩ : RayRes).exitSeen = true := by
  have hf : ⌊(3/2 : ℚ)⌋ = 1 := by rw [Int.floor_eq_iff] <;> norm_num
  have hth := castRay_landmark_flags [[1, 1, 1, 1, 1], [1, 0, 0, 0, 1], [1, 1, 1, 1, 1]]
    1 1 2 1 (3/2) (3/2) 1 (1/2) 4 ⟨some 1, 1, true, true⟩ [(2, 1), (2, 2)]
    castRayT_corridor_run (by simp)
  exact ⟨castRayT_corridor_run, hth.1 ⟨by rw [hf], by rw [hf]⟩,
    hth.2.2.2.1 ⟨by simp, by decide⟩⟩

/-- C8: the projector computes `rayAngle = pose.angle - fov/2 +
(x/screenWidth)*fov` and `correctedDistance = distance * cos(rayAngle -
pose.angle)`; when the ray is cast straight ahead (`rayAngle = pose.angle`)
the corrected distance equals the raw distance exactly. -/
theorem correctedDist_straight_ahead (poseAngle fov distance : ℝ) (x w : ℕ)
    (h : rayAngle poseAngle fov x w = poseAngle) :
    correctedDist distance (rayAngle poseAngle fov x w) poseAngle = distance := by
  rw [correctedDist, h, sub_self, Real.cos_zero, mul_one]

/-- Witness for C8: the centre column `x = 1` of a 2-column screen points
straight ahead. -/
theorem correctedDist_straight_ahead_witness :
    rayAngle 0 2 1 2 = 0 ∧ correctedDist 5 (rayAngle 0 2 1 2) 0 = 5 :=
  ⟨by norm_num [rayAngle],
    correctedDist_straight_ahead 0 2 5 1 2 (by norm_num [rayAngle])⟩

/-- C9: collision is resolved axis-separately.  The X move is attempted
first, probing `isWall` at the proposed position offset by the collision
radius 0.2 in the direction of travel; if the probe hits, only the X move is
rejected.  The Y move is then attempted independently with its own offset
probe (evaluated at the already-resolved X coordinate, as in the source). -/
theorem updateMove_axis_separated (grid : List (List ℕ))
    (px py c1 s1 c2 s2 moveSpeed delta : ℚ) (k : Intent) :
    (isWall grid ((proposedMove px py c1 s1 c2 s2 moveSpeed delta k).1 + c1 * (2 / 10))
        py = true →
      (updateMove grid px py c1 s1 c2 s2 moveSpeed delta k).1 = px) ∧
    (isWall grid ((proposedMove px py c1 s1 c2 s2 moveSpeed delta k).1 + c1 * (2 / 10))
        py = false →
      (updateMove grid px py c1 s1 c2 s2 moveSpeed delta k).1 =
        (proposedMove px py c1 s1 c2 s2 moveSpeed delta k).1) ∧
    (isWall grid (updateMove grid px py c1 s1 c2 s2 moveSpeed delta k).1
        ((proposedMove px py c1 s1 c2 s2 moveSpeed delta k).2 + s1 * (2 / 10)) = true →
      (updateMove grid px py c1 s1 c2 s2 moveSpeed delta k).2 = py) ∧
    (isWall grid (updateMove grid px py c1 s1 c2 s2 moveSpeed delta k).1
        ((proposedMove px py c1 s1 c2 s2 moveSpeed delta k).2 + s1 * (2 / 10)) = false →
      (updateMove grid px py c1 s1 c2 s2 moveSpeed delta k).2 =
        (proposedMove px py c1 s1 c2 s2 moveSpeed delta k).2) := by
  simp only [updateMove]
  rcases hx : isWall grid ((proposedMove px py c1 s1 c2 s2 moveSpeed delta k).1 + c1 * (2 / 10)) py with _ | _ <;>
    simp [hx] <;>
    rcases hy : isWall grid _ _ with _ | _ <;> simp [hy]

/-- The X-axis probe of the C9 witness scenario hits the east wall. -/
theorem witnessProbeX_blocked :
    isWall [[1, 1, 1], [1, 0, 1], [1, 1, 1]]
        ((proposedMove (3/2) (3/2) 1 0 0 1 1 (1/2) ⟨true, false, false, false⟩).1 + 1 * (2 / 10))
        (3/2) = true := by
  have h1 : ⌊(11/5 : ℚ)⌋ = 2 := by rw [Int.floor_eq_iff] <;> norm_num
  have h2 : ⌊(3/2 : ℚ)⌋ = 1 := by rw [Int.floor_eq_iff] <;> norm_num
  norm_num [isWall, proposedMove, gridAt,
    show (3/2 : ℚ) + 1 * ((1 * (1/2) + 0) + (0 + 0)) + 1 * (2/10) = 11/5 by norm_num,
    h1, h2]
  decide

/-- Witness for C9: in the 3×3 single-cell grid, moving east into the wall
is blocked on X (the position's X component stays put). -/
theorem updateMove_axis_separated_witness :
    isWall [[1, 1, 1], [1, 0, 1], [1, 1, 1]]
        ((proposedMove (3/2) (3/2) 1 0 0 1 1 (1/2) ⟨true, false, false, false⟩).1 + 1 * (2 / 10))
        (3/2) = true ∧
      (updateMove [[1, 1, 1], [1, 0, 1], [1, 1, 1]] (3/2) (3/2) 1 0 0 1 1 (1/2)
        ⟨true, false, false, false⟩).1 = 3/2 :=
  ⟨witnessProbeX_blocked,
    (updateMove_axis_separated [[1, 1, 1], [1, 0, 1], [1, 1, 1]] (3/2) (3/2) 1 0 0 1 1 (1/2)
      ⟨true, false, false, false⟩).1 witnessProbeX_blocked⟩

/-! #### The carving invariant: the open-boundary graph stays a tree -/

theorem sat_mono (w h : ℕ) (m m' : CellFun)
    (hmono : ∀ q : ℤ × ℤ, visitedIn m q → visitedIn m' q)
    (p : ℤ × ℤ) (hs : SaturatedAt w h m p) : SaturatedAt w h m' p :=
  fun d hd => hmono _ (hs d hd)

theorem unvisitedCount_pos' (w h : ℕ) (m : CellFun) (x y : ℤ) (hB : inB w h x y)
    (hun : (m x y).visited = false) : 1 ≤ unvisitedCount w h m := by
  have hB' : 0 ≤ x ∧ x < (w : ℤ) ∧ 0 ≤ y ∧ y < (h : ℤ) := hB
  have hx : ((x.toNat : ℤ)) = x := Int.toNat_of_nonneg hB'.1
  have hy : ((y.toNat : ℤ)) = y := Int.toNat_of_nonneg hB'.2.2.1
  exact unvisitedCount_pos w h m x.toNat y.toNat (by omega) (by omega)
    (by rw [hx, hy]; exact hun)

theorem unvisitedCount_lt' (w h : ℕ) (m m' : CellFun)
    (hmono : ∀ p : ℤ × ℤ, visitedIn m p → visitedIn m' p)
    (x y : ℤ) (hB : inB w h x y)
    (hold : (m x y).visited = false) (hnew : (m' x y).visited = true) :
    unvisitedCount w h m' < unvisitedCount w h m := by
  have hB' : 0 ≤ x ∧ x < (w : ℤ) ∧ 0 ≤ y ∧ y < (h : ℤ) := hB
  have hx : ((x.toNat : ℤ)) = x := Int.toNat_of_nonneg hB'.1
  have hy : ((y.toNat : ℤ)) = y := Int.toNat_of_nonneg hB'.2.2.1
  exact unvisitedCount_lt w h m m' hmono x.toNat y.toNat (by omega) (by omega)
    (by rw [hx, hy]; exact hold) (by rw [hx, hy]; exact hnew)

theorem unvisitedCount_openBoth (w h : ℕ) (m : CellFun) (x y : ℤ) (d : Dir) :
    unvisitedCount w h (openBoth m x y d) = unvisitedCount w h m := by
  unfold unvisitedCount
  congr 1
  apply Finset.filter_congr
  intro p _
  rw [openBoth_visited]

theorem initial_no_edges (w h : ℕ) (p q : ℤ × ℤ) :
    ¬ EdgeStep w h initialState.m p q := by
  rintro ⟨_, _, hc⟩
  rcases hc with ⟨_, _, h3⟩ | ⟨_, _, h3⟩ | ⟨_, _, h3⟩ | ⟨_, _, h3⟩ <;>
    exact absurd h3.symm Bool.false_ne_true

theorem initial_acyclic (w h : ℕ) : (mazeGraphZ w h initialState.m).IsAcyclic := by
  intro v c hc
  cases c with
  | nil => exact hc.ne_nil rfl
  | cons ha _ => exact initial_no_edges w h _ _ ha

/-- Attaching a pendant vertex `b` to an acyclic graph by the single edge
`a — b` keeps the graph acyclic. -/
theorem isAcyclic_pendant {V : Type} (G H : SimpleGraph V) (a b : V)
    (hAdj : ∀ p q, H.Adj p q ↔ G.Adj p q ∨ (p = a ∧ q = b) ∨ (p = b ∧ q = a))
    (hiso : ∀ z, ¬ G.Adj b z) (hab : a ≠ b) (hG : G.IsAcyclic) : H.IsAcyclic := by
  classical
  have hbnbr : ∀ z, H.Adj b z → z = a := by
    intro z hz
    rcases (hAdj b z).mp hz with hg | ⟨hba, _⟩ | ⟨_, hza⟩
    · exact absurd hg (hiso z)
    · exact absurd hba.symm hab
    · exact hza
  have haux : ∀ r : H.Walk b a, s(b, a) ∈ r.edges := by
    intro r
    cases r with
    | nil => exact absurd rfl hab
    | cons h' r' =>
      rename_i z
      have hz := hbnbr z h'
      subst hz
      rw [SimpleGraph.Walk.edges_cons]
      exact List.mem_cons_self _ _
  have key : ∀ p : H.Walk b b, ¬ p.IsCycle := by
    intro p hp
    cases p with
    | nil => exact hp.ne_nil rfl
    | cons h' q =>
      rename_i z
      have hz := hbnbr z h'
      subst hz
      rw [SimpleGraph.Walk.cons_isCycle_iff] at hp
      refine hp.2 (List.mem_reverse.mp ?_)
      rw [← SimpleGraph.Walk.edges_reverse]
      exact haux q.reverse
  intro v c hc
  by_cases hb : b ∈ c.support
  · exact key (c.rotate hb) (hc.rotate hb)
  · have hsub : ∀ e ∈ c.edges, e ∈ G.edgeSet := by
      intro e
      induction e using Sym2.ind with
      | _ z w =>
        intro hzw
        rcases (hAdj z w).mp (c.adj_of_mem_edges hzw) with hg | ⟨_, hwb⟩ | ⟨hzb, _⟩
        · exact (G.mem_edgeSet).mpr hg
        · exact absurd (hwb ▸ c.snd_mem_support_of_mem_edges hzw) hb
        · exact absurd (hzb ▸ c.fst_mem_support_of_mem_edges hzw) hb
    exact hG _ (hc.transfer hsub)

/-- The main induction for `carve`: starting from a lattice whose open
boundaries join visited cells (or the cell about to be carved), whose
visited region is in-bounds and fully reachable from the carved cell, and
whose open-boundary graph is acyclic, carving preserves all of it, marks
the carved cell, saturates every newly visited cell, and strictly
decreases the number of unvisited cells. -/
theorem carve_main (rng : ℕ → ℕ) (w h : ℕ) :
    ∀ (fuel : ℕ) (x y : ℤ) (st : GenState),
      inB w h x y →
      (st.m x y).visited = false →
      EdgesVisitedOr w h st.m (x, y) →
      (∀ p, visitedIn st.m p → ReachOpen w h st.m p (x, y)) →
      (mazeGraphZ w h st.m).IsAcyclic →
      VisitedInB w h st.m →
      unvisitedCount w h st.m ≤ fuel →
      visitedIn (carve rng w h fuel x y st).m (x, y) ∧
      EdgesVisited w h (carve rng w h fuel x y st).m ∧
      (∀ p, visitedIn (carve rng w h fuel x y st).m p →
        ReachOpen w h (carve rng w h fuel x y st).m p (x, y)) ∧
      (mazeGraphZ w h (carve rng w h fuel x y st).m).IsAcyclic ∧
      VisitedInB w h (carve rng w h fuel x y st).m ∧
      (∀ p, visitedIn (carve rng w h fuel x y st).m p → ¬ visitedIn st.m p →
        SaturatedAt w h (carve rng w h fuel x y st).m p) ∧
      unvisitedCount w h (carve rng w h fuel x y st).m < unvisitedCount w h st.m := by
  intro fuel
  induction fuel with
  | zero =>
    intro x y st hB hun _ _ _ _ hcnt
    exact absurd (unvisitedCount_pos' w h st.m x y hB hun) (by omega)
  | succ f ih =>
    intro x y st hB hun hEVO hReach hAcy hVB hcnt
    have hmono1 : ∀ p : ℤ × ℤ, visitedIn st.m p → visitedIn (markVisited st.m x y) p := by
      intro p hp
      show ((markVisited st.m x y) p.1 p.2).visited = true
      rw [markVisited_visited]
      split
      · rfl
      · exact hp
    have hvx1 : visitedIn (markVisited st.m x y) (x, y) := by
      show ((markVisited st.m x y) x y).visited = true
      rw [markVisited_visited, if_pos ⟨rfl, rfl⟩]
    have hcnt1 : unvisitedCount w h (markVisited st.m x y) < unvisitedCount w h st.m :=
      unvisitedCount_lt' w h st.m _ hmono1 x y hB hun hvx1
    have hJ1 :
        visitedIn (markVisited st.m x y) (x, y) ∧
        EdgesVisited w h (markVisited st.m x y) ∧
        (∀ p, visitedIn (markVisited st.m x y) p →
          ReachOpen w h (markVisited st.m x y) p (x, y)) ∧
        (mazeGraphZ w h (markVisited st.m x y)).IsAcyclic ∧
        VisitedInB w h (markVisited st.m x y) ∧
        unvisitedCount w h (markVisited st.m x y) ≤ f ∧
        unvisitedCount w h (markVisited st.m x y) < unvisitedCount w h st.m ∧
        (∀ p, visitedIn (markVisited st.m x y) p → ¬ visitedIn st.m p → p ≠ (x, y) →
          SaturatedAt w h (markVisited st.m x y) p) := by
      refine ⟨hvx1, ?_, ?_, ?_, ?_, by omega, hcnt1, ?_⟩
      · intro p q he
        have he' := (edgeStep_markVisited w h st.m x y p q).mp he
        obtain ⟨h1, h2⟩ := hEVO p q he'
        constructor
        · rcases h1 with h1 | rfl
          · exact hmono1 p h1
          · exact hvx1
        · rcases h2 with h2 | rfl
          · exact hmono1 q h2
          · exact hvx1
      · intro p hp
        by_cases hpe : p = (x, y)
        · subst hpe
          exact Relation.ReflTransGen.refl
        · have hp2 : ((markVisited st.m x y) p.1 p.2).visited = true := hp
          rw [markVisited_visited] at hp2
          split_ifs at hp2 with hcnd
          · exact absurd (Prod.ext hcnd.1 hcnd.2) hpe
          · exact reach_mono w h st.m _
              (fun a b d' hf => by rw [markVisited_walls]; exact hf)
              p (x, y) (hReach p hp2)
      · rw [mazeGraphZ_markVisited]
        exact hAcy
      · intro p hp
        by_cases hpe : p = (x, y)
        · subst hpe
          exact hB
        · have hp2 : ((markVisited st.m x y) p.1 p.2).visited = true := hp
          rw [markVisited_visited] at hp2
          split_ifs at hp2 with hcnd
          · exact absurd (Prod.ext hcnd.1 hcnd.2) hpe
          · exact hVB p hp2
      · intro p hp hnst hpe
        exfalso
        have hp2 : ((markVisited st.m x y) p.1 p.2).visited = true := hp
        rw [markVisited_visited] at hp2
        split_ifs at hp2 with hcnd
        · exact hpe (Prod.ext hcnd.1 hcnd.2)
        · exact hnst hp2
    have htry : ∀ (d : Dir) (s : GenState),
        visitedIn s.m (x, y) ∧
        EdgesVisited w h s.m ∧
        (∀ p, visitedIn s.m p → ReachOpen w h s.m p (x, y)) ∧
        (mazeGraphZ w h s.m).IsAcyclic ∧
        VisitedInB w h s.m ∧
        unvisitedCount w h s.m ≤ f ∧
        unvisitedCount w h s.m < unvisitedCount w h st.m ∧
        (∀ p, visitedIn s.m p → ¬ visitedIn st.m p → p ≠ (x, y) →
          SaturatedAt w h s.m p) →
        (visitedIn (tryDir rng w h f x y d s).m (x, y) ∧
         EdgesVisited w h (tryDir rng w h f x y d s).m ∧
         (∀ p, visitedIn (tryDir rng w h f x y d s).m p →
           ReachOpen w h (tryDir rng w h f x y d s).m p (x, y)) ∧
         (mazeGraphZ w h (tryDir rng w h f x y d s).m).IsAcyclic ∧
         VisitedInB w h (tryDir rng w h f x y d s).m ∧
         unvisitedCount w h (tryDir rng w h f x y d s).m ≤ f ∧
         unvisitedCount w h (tryDir rng w h f x y d s).m < unvisitedCount w h st.m ∧
         (∀ p, visitedIn (tryDir rng w h f x y d s).m p → ¬ visitedIn st.m p →
           p ≠ (x, y) → SaturatedAt w h (tryDir rng w h f x y d s).m p)) ∧
        (inB w h (x + d.dx) (y + d.dy) →
          visitedIn (tryDir rng w h f x y d s).m (x + d.dx, y + d.dy)) := by
      rintro d s ⟨hs1, hs2, hs3, hs4, hs5, hs6, hs7, hs8⟩
      simp only [tryDir]
      split
      · rename_i hg
        have hn : inB w h (x + d.dx) (y + d.dy) := ⟨hg.1, hg.2.1, hg.2.2.1, hg.2.2.2.1⟩
        have hun2 : (s.m (x + d.dx) (y + d.dy)).visited = false := hg.2.2.2.2
        have hne : ((x : ℤ), y) ≠ ((x + d.dx : ℤ), (y + d.dy : ℤ)) := by
          intro he
          rw [he] at hs1
          have h2 : (s.m (x + d.dx) (y + d.dy)).visited = true := hs1
          rw [hun2] at h2
          exact Bool.false_ne_true h2
        have hmono2 : ∀ p : ℤ × ℤ, visitedIn s.m p → visitedIn (openBoth s.m x y d) p := by
          intro p hp
          show ((openBoth s.m x y d) p.1 p.2).visited = true
          rw [openBoth_visited]
          exact hp
        have hAdjO := fun p q => edgeStep_openBoth w h s.m x y d hB hn p q
        have hpre2 : ((openBoth s.m x y d) (x + d.dx) (y + d.dy)).visited = false := by
          rw [openBoth_visited]
          exact hun2
        have hpre3 : EdgesVisitedOr w h (openBoth s.m x y d) (x + d.dx, y + d.dy) := by
          intro p q he
          rcases (hAdjO p q).mp he with he' | ⟨rfl, rfl⟩ | ⟨rfl, rfl⟩
          · obtain ⟨h1, h2⟩ := hs2 p q he'
            exact ⟨Or.inl (hmono2 p h1), Or.inl (hmono2 q h2)⟩
          · exact ⟨Or.inl (hmono2 _ hs1), Or.inr rfl⟩
          · exact ⟨Or.inr rfl, Or.inl (hmono2 _ hs1)⟩
        have hnewE : EdgeStep w h (openBoth s.m x y d) (x, y) (x + d.dx, y + d.dy) :=
          openBoth_newEdge w h s.m x y d hB hn
        have hpre4 : ∀ p, visitedIn (openBoth s.m x y d) p →
            ReachOpen w h (openBoth s.m x y d) p (x + d.dx, y + d.dy) := by
          intro p hp
          have hpv : visitedIn s.m p := by
            have h2 : ((openBoth s.m x y d) p.1 p.2).visited = true := hp
            rw [openBoth_visited] at h2
            exact h2
          exact Relation.ReflTransGen.tail
            (reach_mono w h s.m _
              (fun a b d' hf => openBoth_walls_mono s.m x y d a b d' hf)
              p (x, y) (hs3 p hpv))
            hnewE
        have hpre5 : (mazeGraphZ w h (openBoth s.m x y d)).IsAcyclic := by
          refine isAcyclic_pendant (mazeGraphZ w h s.m)
            (mazeGraphZ w h (openBoth s.m x y d)) ((x : ℤ), y)
            ((x + d.dx : ℤ), (y + d.dy : ℤ)) hAdjO ?_ hne hs4
          intro z hz
          have h1 := (hs2 _ z hz).1
          have h2 : (s.m (x + d.dx) (y + d.dy)).visited = true := h1
          rw [hun2] at h2
          exact Bool.false_ne_true h2
        have hpre6 : VisitedInB w h (openBoth s.m x y d) := by
          intro p hp
          apply hs5
          have h2 : ((openBoth s.m x y d) p.1 p.2).visited = true := hp
          rw [openBoth_visited] at h2
          exact h2
        have hpre7 : unvisitedCount w h (openBoth s.m x y d) ≤ f := by
          rw [unvisitedCount_openBoth]
          exact hs6
        obtain ⟨hp1, hp2, hp3, hp4, hp5, hp6, hp7⟩ :=
          ih (x + d.dx) (y + d.dy) ⟨openBoth s.m x y d, s.ctr⟩ hn hpre2 hpre3
            hpre4 hpre5 hpre6 hpre7
        have hp7' : unvisitedCount w h
            (carve rng w h f (x + d.dx) (y + d.dy) ⟨openBoth s.m x y d, s.ctr⟩).m <
            unvisitedCount w h (openBoth s.m x y d) := hp7
        rw [unvisitedCount_openBoth] at hp7'
        have hmono3 : ∀ p : ℤ × ℤ, visitedIn s.m p →
            visitedIn (carve rng w h f (x + d.dx) (y + d.dy)
              ⟨openBoth s.m x y d, s.ctr⟩).m p := by
          intro p hp
          exact carve_visited_mono rng w h f (x + d.dx) (y + d.dy)
            ⟨openBoth s.m x y d, s.ctr⟩ p.1 p.2 (by
              show ((openBoth s.m x y d) p.1 p.2).visited = true
              rw [openBoth_visited]
              exact hp)
        have hnewE' : EdgeStep w h
            (carve rng w h f (x + d.dx) (y + d.dy) ⟨openBoth s.m x y d, s.ctr⟩).m
            (x, y) (x + d.dx, y + d.dy) :=
          edgeStep_mono w h _ _
            (fun a b d' hf => carve_walls_mono rng w h f (x + d.dx) (y + d.dy)
              ⟨openBoth s.m x y d, s.ctr⟩ a b d' hf)
            _ _ hnewE
        refine ⟨⟨hmono3 _ hs1, hp2, ?_, hp4, hp5, by omega, by omega, ?_⟩, fun _ => hp1⟩
        · intro p hp
          exact Relation.ReflTransGen.tail (hp3 p hp) (edgeStep_symm w h _ _ _ hnewE')
        · intro p hp hnst hnexy
          by_cases hps : visitedIn s.m p
          · exact sat_mono w h s.m _ hmono3 p (hs8 p hps hnst hnexy)
          · have hnotO : ¬ visitedIn (openBoth s.m x y d) p := by
              intro hc
              apply hps
              have h2 : ((openBoth s.m x y d) p.1 p.2).visited = true := hc
              rw [openBoth_visited] at h2
              exact h2
            exact hp6 p hp hnotO
      · rename_i hg
        refine ⟨⟨hs1, hs2, hs3, hs4, hs5, hs6, hs7, hs8⟩, ?_⟩
        intro hnb
        have hB' : 0 ≤ x + d.dx ∧ x + d.dx < (w : ℤ) ∧ 0 ≤ y + d.dy ∧
            y + d.dy < (h : ℤ) := hnb
        cases hv : (s.m (x + d.dx) (y + d.dy)).visited with
        | false => exact absurd ⟨hB'.1, hB'.2.1, hB'.2.2.1, hB'.2.2.2, hv⟩ hg
        | true => exact hv
    rw [carve_succ]
    set ds := shuffledDirs (rng st.ctr) (rng (st.ctr + 1)) (rng (st.ctr + 2)) with hds
    set s0 : GenState := ⟨markVisited st.m x y, st.ctr + 3⟩ with hs0
    obtain ⟨hJA, hPA⟩ := htry ds.1 s0 hJ1
    set sA := tryDir rng w h f x y ds.1 s0 with hsA
    obtain ⟨hJB, hPB⟩ := htry ds.2.1 sA hJA
    set sB := tryDir rng w h f x y ds.2.1 sA with hsB
    obtain ⟨hJC, hPC⟩ := htry ds.2.2.1 sB hJB
    set sC := tryDir rng w h f x y ds.2.2.1 sB with hsC
    obtain ⟨hJD, hPD⟩ := htry ds.2.2.2 sC hJC
    obtain ⟨hd1, hd2, hd3, hd4, hd5, hd6, hd7, hd8⟩ := hJD
    have hsat : SaturatedAt w h (tryDir rng w h f x y ds.2.2.2 sC).m (x, y) := by
      intro d hd
      have hd' : inB w h (x + d.dx) (y + d.dy) := hd
      have hmem := shuffledDirs_mem (rng st.ctr) (rng (st.ctr + 1)) (rng (st.ctr + 2)) d
      rw [← hds] at hmem
      rcases hmem with hq | hq | hq | hq
      · subst hq
        exact tryDir_visited_mono rng w h f x y ds.2.2.2 sC _ _
          (tryDir_visited_mono rng w h f x y ds.2.2.1 sB _ _
            (tryDir_visited_mono rng w h f x y ds.2.1 sA _ _ (hPA hd')))
      · subst hq
        exact tryDir_visited_mono rng w h f x y ds.2.2.2 sC _ _
          (tryDir_visited_mono rng w h f x y ds.2.2.1 sB _ _ (hPB hd'))
      · subst hq
        exact tryDir_visited_mono rng w h f x y ds.2.2.2 sC _ _ (hPC hd')
      · subst hq
        exact hPD hd'
    refine ⟨hd1, hd2, hd3, hd4, hd5, ?_, hd7⟩
    intro p hp hnst
    by_cases hpe : p = (x, y)
    · subst hpe
      exact hsat
    · exact hd8 p hp hnst hpe

theorem initial_unvisited (p : ℤ × ℤ) : ¬ visitedIn initialState.m p :=
  fun hp => Bool.false_ne_true hp

/-- After the top-level `carve(0, 0)` with fuel `w · h`, every in-bounds
cell is visited and reaches `(0, 0)` through open boundaries, and the
open-boundary graph is acyclic. -/
theorem generateMazeCore_main (w h : ℕ) (hw : 1 ≤ w) (hh : 1 ≤ h) (rng : ℕ → ℕ) :
    (∀ p : ℤ × ℤ, inB w h p.1 p.2 → visitedIn (generateMazeCore w h rng) p) ∧
    (∀ p : ℤ × ℤ, inB w h p.1 p.2 →
      ReachOpen w h (generateMazeCore w h rng) p (0, 0)) ∧
    (mazeGraphZ w h (generateMazeCore w h rng)).IsAcyclic := by
  have hw' : (0 : ℤ) < (w : ℤ) := by exact_mod_cast hw
  have hh' : (0 : ℤ) < (h : ℤ) := by exact_mod_cast hh
  have hB0 : inB w h (0 : ℤ) (0 : ℤ) := ⟨le_refl 0, hw', le_refl 0, hh'⟩
  have hcard : unvisitedCount w h initialState.m ≤ w * h := by
    have h1 := Finset.card_filter_le (Finset.range w ×ˢ Finset.range h)
      (fun p => (initialState.m (p.1 : ℤ) (p.2 : ℤ)).visited = false)
    simpa [unvisitedCount, Finset.card_product] using h1
  obtain ⟨hv0, hEV, hReachAll, hAcyF, hVBF, hsatNew, _⟩ :=
    carve_main rng w h (w * h) 0 0 initialState hB0 rfl
      (fun p q he => absurd he (initial_no_edges w h p q))
      (fun p hp => absurd hp (initial_unvisited p))
      (initial_acyclic w h)
      (fun p hp => absurd hp (initial_unvisited p))
      hcard
  have hsatAll : ∀ p, visitedIn (generateMazeCore w h rng) p →
      SaturatedAt w h (generateMazeCore w h rng) p :=
    fun p hp => hsatNew p hp (initial_unvisited p)
  have hrow : ∀ i : ℕ, (i : ℤ) < (w : ℤ) →
      visitedIn (generateMazeCore w h rng) ((i : ℤ), (0 : ℤ)) := by
    intro i
    induction i with
    | zero => exact fun _ => hv0
    | succ i ihr =>
      intro hlt
      have hlt' : (i : ℤ) + 1 < (w : ℤ) := by push_cast at hlt; exact hlt
      have hvi := ihr (by omega)
      have hB2 : inB w h ((i : ℤ) + 1) ((0 : ℤ) + 0) :=
        ⟨by omega, by omega, by omega, by omega⟩
      have hv2 : visitedIn (generateMazeCore w h rng) ((i : ℤ) + 1, (0 : ℤ) + 0) :=
        hsatAll _ hvi .east hB2
      exact hv2
  have hcol : ∀ j i : ℕ, (i : ℤ) < (w : ℤ) → (j : ℤ) < (h : ℤ) →
      visitedIn (generateMazeCore w h rng) ((i : ℤ), (j : ℤ)) := by
    intro j
    induction j with
    | zero => exact fun i hi _ => hrow i hi
    | succ j ihc =>
      intro i hi hlt
      have hlt' : (j : ℤ) + 1 < (h : ℤ) := by push_cast at hlt; exact hlt
      have hvj := ihc i hi (by omega)
      have hB2 : inB w h ((i : ℤ) + 0) ((j : ℤ) + 1) :=
        ⟨by omega, by omega, by omega, by omega⟩
      have hv2 : visitedIn (generateMazeCore w h rng) ((i : ℤ) + 0, (j : ℤ) + 1) :=
        hsatAll _ hvj .south hB2
      exact hv2
  have hall : ∀ p : ℤ × ℤ, inB w h p.1 p.2 →
      visitedIn (generateMazeCore w h rng) p := by
    intro p hp
    have hp' : 0 ≤ p.1 ∧ p.1 < (w : ℤ) ∧ 0 ≤ p.2 ∧ p.2 < (h : ℤ) := hp
    have h1 : ((p.1.toNat : ℤ)) = p.1 := Int.toNat_of_nonneg hp'.1
    have h2 : ((p.2.toNat : ℤ)) = p.2 := Int.toNat_of_nonneg hp'.2.2.1
    have h3 := hcol p.2.toNat p.1.toNat (by omega) (by omega)
    rw [h1, h2] at h3
    exact h3
  exact ⟨hall, fun p hp => hReachAll p (hall p hp), hAcyF⟩

/-- Open-boundary reachability between in-bounds cells transfers to
reachability in the `Fin`-indexed graph. -/
theorem reach_reachable (w h : ℕ) (m : CellFun) :
    ∀ p q : ℤ × ℤ, ReachOpen w h m p q →
      ∀ a b : Fin w × Fin h,
        p = ((a.1 : ℤ), (a.2 : ℤ)) → q = ((b.1 : ℤ), (b.2 : ℤ)) →
        (mazeGraph w h m).Reachable a b := by
  intro p q hr
  induction hr with
  | refl =>
    intro a b hpa hpb
    have he : ((a.1 : ℤ), (a.2 : ℤ)) = (((b.1 : ℤ)), ((b.2 : ℤ))) := hpa ▸ hpb
    rw [Prod.mk.injEq] at he
    have e1 : a.1 = b.1 := Fin.ext (by exact_mod_cast he.1)
    have e2 : a.2 = b.2 := Fin.ext (by exact_mod_cast he.2)
    have e3 : a = b := Prod.ext e1 e2
    rw [e3]
  | tail hpc hcq ihq =>
    rename_i u v
    intro a b hpa hqb
    have hcq2 := hcq
    obtain ⟨huB, hvB, -⟩ := hcq2
    have huB' : inB w h u.1 u.2 := huB
    have hcoords : u = (((toFinPair w h u huB').1 : ℤ),
        ((toFinPair w h u huB').2 : ℤ)) := by
      have hp' : 0 ≤ u.1 ∧ u.1 < (w : ℤ) ∧ 0 ≤ u.2 ∧ u.2 < (h : ℤ) := huB'
      show u = ((u.1.toNat : ℤ), (u.2.toNat : ℤ))
      rw [Int.toNat_of_nonneg hp'.1, Int.toNat_of_nonneg hp'.2.2.1]
    have hAdjF : (mazeGraph w h m).Adj (toFinPair w h u huB') b := by
      show EdgeStep w h m (((toFinPair w h u huB').1 : ℤ),
        ((toFinPair w h u huB').2 : ℤ)) ((b.1 : ℤ), (b.2 : ℤ))
      rw [← hcoords, ← hqb]
      exact hcq
    exact (ihq a (toFinPair w h u huB') hpa hcoords).trans hAdjF.reachable

theorem mazeGraph_connected (w h : ℕ) (hw : 1 ≤ w) (hh : 1 ≤ h) (m : CellFun)
    (hreach : ∀ p : ℤ × ℤ, inB w h p.1 p.2 → ReachOpen w h m p (0, 0)) :
    (mazeGraph w h m).Connected := by
  haveI : Nonempty (Fin w × Fin h) := ⟨(⟨0, hw⟩, ⟨0, hh⟩)⟩
  have key : ∀ a : Fin w × Fin h,
      (mazeGraph w h m).Reachable a (⟨0, hw⟩, ⟨0, hh⟩) := by
    intro a
    have hBa : inB w h ((a.1 : ℤ)) ((a.2 : ℤ)) :=
      ⟨Int.natCast_nonneg _, by exact_mod_cast a.1.isLt, Int.natCast_nonneg _,
        by exact_mod_cast a.2.isLt⟩
    have hr := hreach ((a.1 : ℤ), (a.2 : ℤ)) hBa
    exact reach_reachable w h m _ _ hr a (⟨0, hw⟩, ⟨0, hh⟩) rfl rfl
  constructor
  intro a b
  exact (key a).trans (key b).symm

theorem mazeGraph_acyclic (w h : ℕ) (m : CellFun)
    (hz : (mazeGraphZ w h m).IsAcyclic) : (mazeGraph w h m).IsAcyclic := by
  intro v c hc
  let f : (mazeGraph w h m) →g (mazeGraphZ w h m) :=
    ⟨fun a => ((a.1 : ℤ), (a.2 : ℤ)), fun ha => ha⟩
  have hinj : Function.Injective (f : Fin w × Fin h → ℤ × ℤ) := by
    intro a b hab
    have hab' : ((a.1 : ℤ), (a.2 : ℤ)) = ((b.1 : ℤ), (b.2 : ℤ)) := hab
    rw [Prod.mk.injEq] at hab'
    exact Prod.ext (Fin.ext (by exact_mod_cast hab'.1))
      (Fin.ext (by exact_mod_cast hab'.2))
  exact hz _ (hc.map hinj)

/-- The opened boundaries are in bijection with the edges of the
open-boundary graph: `openCount` counts the graph's edges. -/
theorem openCount_eq_card (w h : ℕ) (hw : 0 < w) (hh : 0 < h) (m : CellFun) :
    openCount w h m = (mazeGraph w h m).edgeFinset.card := by
  classical
  rw [openCount, ← Finset.card_disjSum]
  apply Finset.card_nbij (boundaryEdge w h hw hh)
  · rintro (⟨px, py⟩ | ⟨px, py⟩) ha
    · rw [Finset.inl_mem_disjSum] at ha
      simp only [openH, Finset.mem_filter, Finset.mem_product, Finset.mem_range] at ha
      obtain ⟨⟨hp1, hp2⟩, hp3, hp4⟩ := ha
      rw [SimpleGraph.mem_edgeFinset]
      simp only [boundaryEdge]
      rw [SimpleGraph.mem_edgeSet]
      show EdgeStep w h m (((min px (w - 1) : ℕ) : ℤ), ((min py (h - 1) : ℕ) : ℤ))
        (((min (px + 1) (w - 1) : ℕ) : ℤ), ((min py (h - 1) : ℕ) : ℤ))
      have e1 : min px (w - 1) = px := by omega
      have e2 : min (px + 1) (w - 1) = px + 1 := by omega
      have e3 : min py (h - 1) = py := by omega
      refine ⟨⟨by omega, by omega, by omega, by omega⟩,
        ⟨by omega, by omega, by omega, by omega⟩, Or.inl ⟨by push_cast; omega, rfl, ?_⟩⟩
      rw [e1, e3]
      exact hp4
    · rw [Finset.inr_mem_disjSum] at ha
      simp only [openV, Finset.mem_filter, Finset.mem_product, Finset.mem_range] at ha
      obtain ⟨⟨hp1, hp2⟩, hp3, hp4⟩ := ha
      rw [SimpleGraph.mem_edgeFinset]
      simp only [boundaryEdge]
      rw [SimpleGraph.mem_edgeSet]
      show EdgeStep w h m (((min px (w - 1) : ℕ) : ℤ), ((min py (h - 1) : ℕ) : ℤ))
        (((min px (w - 1) : ℕ) : ℤ), ((min (py + 1) (h - 1) : ℕ) : ℤ))
      have e1 : min px (w - 1) = px := by omega
      have e3 : min py (h - 1) = py := by omega
      have e4 : min (py + 1) (h - 1) = py + 1 := by omega
      refine ⟨⟨by omega, by omega, by omega, by omega⟩,
        ⟨by omega, by omega, by omega, by omega⟩,
        Or.inr (Or.inr (Or.inl ⟨by push_cast; omega, rfl, ?_⟩))⟩
      rw [e1, e3]
      exact hp4
  · rintro (⟨px, py⟩ | ⟨px, py⟩) ha (⟨qx, qy⟩ | ⟨qx, qy⟩) hb hab
    · rw [Finset.mem_coe, Finset.inl_mem_disjSum] at ha hb
      simp only [openH, Finset.mem_filter, Finset.mem_product, Finset.mem_range] at ha hb
      simp only [boundaryEdge, Sym2.eq_iff, Prod.mk.injEq, Fin.mk.injEq] at hab
      obtain ⟨⟨ha1, ha2⟩, ha3, ha4⟩ := ha
      obtain ⟨⟨hb1, hb2⟩, hb3, hb4⟩ := hb
      rcases hab with ⟨⟨e1, e2⟩, e3, e4⟩ | ⟨⟨e1, e2⟩, e3, e4⟩ <;>
        · simp only [Sum.inl.injEq, Prod.mk.injEq]
          constructor <;> omega
    · rw [Finset.mem_coe, Finset.inl_mem_disjSum] at ha
      rw [Finset.mem_coe, Finset.inr_mem_disjSum] at hb
      simp only [openH, Finset.mem_filter, Finset.mem_product, Finset.mem_range] at ha
      simp only [openV, Finset.mem_filter, Finset.mem_product, Finset.mem_range] at hb
      simp only [boundaryEdge, Sym2.eq_iff, Prod.mk.injEq, Fin.mk.injEq] at hab
      obtain ⟨⟨ha1, ha2⟩, ha3, ha4⟩ := ha
      obtain ⟨⟨hb1, hb2⟩, hb3, hb4⟩ := hb
      exfalso
      rcases hab with ⟨⟨e1, e2⟩, e3, e4⟩ | ⟨⟨e1, e2⟩, e3, e4⟩ <;> omega
    · rw [Finset.mem_coe, Finset.inr_mem_disjSum] at ha
      rw [Finset.mem_coe, Finset.inl_mem_disjSum] at hb
      simp only [openV, Finset.mem_filter, Finset.mem_product, Finset.mem_range] at ha
      simp only [openH, Finset.mem_filter, Finset.mem_product, Finset.mem_range] at hb
      simp only [boundaryEdge, Sym2.eq_iff, Prod.mk.injEq, Fin.mk.injEq] at hab
      obtain ⟨⟨ha1, ha2⟩, ha3, ha4⟩ := ha
      obtain ⟨⟨hb1, hb2⟩, hb3, hb4⟩ := hb
      exfalso
      rcases hab with ⟨⟨e1, e2⟩, e3, e4⟩ | ⟨⟨e1, e2⟩, e3, e4⟩ <;> omega
    · rw [Finset.mem_coe, Finset.inr_mem_disjSum] at ha hb
      simp only [openV, Finset.mem_filter, Finset.mem_product, Finset.mem_range] at ha hb
      simp only [boundaryEdge, Sym2.eq_iff, Prod.mk.injEq, Fin.mk.injEq] at hab
      obtain ⟨⟨ha1, ha2⟩, ha3, ha4⟩ := ha
      obtain ⟨⟨hb1, hb2⟩, hb3, hb4⟩ := hb
      rcases hab with ⟨⟨e1, e2⟩, e3, e4⟩ | ⟨⟨e1, e2⟩, e3, e4⟩ <;>
        · simp only [Sum.inr.injEq, Prod.mk.injEq]
          constructor <;> omega
  · intro e
    induction e using Sym2.ind with
    | _ A B =>
      intro he
      rw [Finset.mem_coe, SimpleGraph.mem_edgeFinset, SimpleGraph.mem_edgeSet] at he
      obtain ⟨hA, hB, hc⟩ := he
      have h1 := A.1.isLt
      have h2 := A.2.isLt
      have h3 := B.1.isLt
      have h4 := B.2.isLt
      rw [Set.mem_image]
      rcases hc with ⟨e1, e2, e3⟩ | ⟨e1, e2, e3⟩ | ⟨e1, e2, e3⟩ | ⟨e1, e2, e3⟩
      · -- east boundary of A
        have e1' : ((B.1 : ℕ) : ℤ) = ((A.1 : ℕ) : ℤ) + 1 := e1
        have e2' : ((B.2 : ℕ) : ℤ) = ((A.2 : ℕ) : ℤ) := e2
        have e3' : (m ((A.1 : ℕ) : ℤ) ((A.2 : ℕ) : ℤ)).walls.get .east = false := e3
        refine ⟨Sum.inl ((A.1 : ℕ), (A.2 : ℕ)), ?_, ?_⟩
        · rw [Finset.mem_coe, Finset.inl_mem_disjSum]
          simp only [openH, Finset.mem_filter, Finset.mem_product, Finset.mem_range]
          exact ⟨⟨h1, h2⟩, by omega, e3'⟩
        · simp only [boundaryEdge]
          rw [Sym2.eq_iff]
          exact Or.inl
            ⟨Prod.ext (Fin.ext (show min (A.1 : ℕ) (w - 1) = (A.1 : ℕ) by omega))
              (Fin.ext (show min (A.2 : ℕ) (h - 1) = (A.2 : ℕ) by omega)),
             Prod.ext (Fin.ext (show min ((A.1 : ℕ) + 1) (w - 1) = (B.1 : ℕ) by omega))
              (Fin.ext (show min (A.2 : ℕ) (h - 1) = (B.2 : ℕ) by omega))⟩
      · -- east boundary of B
        have e1' : ((A.1 : ℕ) : ℤ) = ((B.1 : ℕ) : ℤ) + 1 := e1
        have e2' : ((A.2 : ℕ) : ℤ) = ((B.2 : ℕ) : ℤ) := e2
        have e3' : (m ((B.1 : ℕ) : ℤ) ((B.2 : ℕ) : ℤ)).walls.get .east = false := e3
        refine ⟨Sum.inl ((B.1 : ℕ), (B.2 : ℕ)), ?_, ?_⟩
        · rw [Finset.mem_coe, Finset.inl_mem_disjSum]
          simp only [openH, Finset.mem_filter, Finset.mem_product, Finset.mem_range]
          exact ⟨⟨h3, h4⟩, by omega, e3'⟩
        · simp only [boundaryEdge]
          rw [Sym2.eq_iff]
          exact Or.inr
            ⟨Prod.ext (Fin.ext (show min (B.1 : ℕ) (w - 1) = (B.1 : ℕ) by omega))
              (Fin.ext (show min (B.2 : ℕ) (h - 1) = (B.2 : ℕ) by omega)),
             Prod.ext (Fin.ext (show min ((B.1 : ℕ) + 1) (w - 1) = (A.1 : ℕ) by omega))
              (Fin.ext (show min (B.2 : ℕ) (h - 1) = (A.2 : ℕ) by omega))⟩
      · -- south boundary of A
        have e1' : ((B.2 : ℕ) : ℤ) = ((A.2 : ℕ) : ℤ) + 1 := e1
        have e2' : ((B.1 : ℕ) : ℤ) = ((A.1 : ℕ) : ℤ) := e2
        have e3' : (m ((A.1 : ℕ) : ℤ) ((A.2 : ℕ) : ℤ)).walls.get .south = false := e3
        refine ⟨Sum.inr ((A.1 : ℕ), (A.2 : ℕ)), ?_, ?_⟩
        · rw [Finset.mem_coe, Finset.inr_mem_disjSum]
          simp only [openV, Finset.mem_filter, Finset.mem_product, Finset.mem_range]
          exact ⟨⟨h1, h2⟩, by omega, e3'⟩
        · simp only [boundaryEdge]
          rw [Sym2.eq_iff]
          exact Or.inl
            ⟨Prod.ext (Fin.ext (show min (A.1 : ℕ) (w - 1) = (A.1 : ℕ) by omega))
              (Fin.ext (show min (A.2 : ℕ) (h - 1) = (A.2 : ℕ) by omega)),
             Prod.ext (Fin.ext (show min (A.1 : ℕ) (w - 1) = (B.1 : ℕ) by omega))
              (Fin.ext (show min ((A.2 : ℕ) + 1) (h - 1) = (B.2 : ℕ) by omega))⟩
      · -- south boundary of B
        have e1' : ((A.2 : ℕ) : ℤ) = ((B.2 : ℕ) : ℤ) + 1 := e1
        have e2' : ((A.1 : ℕ) : ℤ) = ((B.1 : ℕ) : ℤ) := e2
        have e3' : (m ((B.1 : ℕ) : ℤ) ((B.2 : ℕ) : ℤ)).walls.get .south = false := e3
        refine ⟨Sum.inr ((B.1 : ℕ), (B.2 : ℕ)), ?_, ?_⟩
        · rw [Finset.mem_coe, Finset.inr_mem_disjSum]
          simp only [openV, Finset.mem_filter, Finset.mem_product, Finset.mem_range]
          exact ⟨⟨h3, h4⟩, by omega, e3'⟩
        · simp only [boundaryEdge]
          rw [Sym2.eq_iff]
          exact Or.inr
            ⟨Prod.ext (Fin.ext (show min (B.1 : ℕ) (w - 1) = (B.1 : ℕ) by omega))
              (Fin.ext (show min (B.2 : ℕ) (h - 1) = (B.2 : ℕ) by omega)),
             Prod.ext (Fin.ext (show min (B.1 : ℕ) (w - 1) = (A.1 : ℕ) by omega))
              (Fin.ext (show min ((B.2 : ℕ) + 1) (h - 1) = (A.2 : ℕ) by omega))⟩

/-- C1: for every width ≥ 1 and height ≥ 1, `generateMaze` succeeds and the
returned lattice is a perfect maze: the number of opened (removed) wall
boundaries equals width·height − 1, and between any two cells of the
lattice there is exactly one path through open boundaries (the
open-boundary graph is a spanning tree: connected and acyclic). -/
theorem generateMaze_perfect (width height : ℤ) (rng : ℕ → ℕ)
    (hw : 1 ≤ width) (hh : 1 ≤ height) :
    ∃ m : CellFun, generateMaze width height rng = .ok m ∧
      openCount width.toNat height.toNat m = width.toNat * height.toNat - 1 ∧
      ∀ a b : Fin width.toNat × Fin height.toNat,
        ∃! p : (mazeGraph width.toNat height.toNat m).Walk a b, p.IsPath := by
  classical
  have hw' : 1 ≤ width.toNat := by omega
  have hh' : 1 ≤ height.toNat := by omega
  obtain ⟨hall, hreach, hacy⟩ :=
    generateMazeCore_main width.toNat height.toNat hw' hh' rng
  have htree : (mazeGraph width.toNat height.toNat
      (generateMazeCore width.toNat height.toNat rng)).IsTree :=
    ⟨mazeGraph_connected width.toNat height.toNat hw' hh' _ hreach,
     mazeGraph_acyclic width.toNat height.toNat _ hacy⟩
  refine ⟨generateMazeCore width.toNat height.toNat rng, ?_, ?_, ?_⟩
  · rw [generateMaze, if_pos ⟨by omega, by omega⟩]
  · have hcard := htree.card_edgeFinset
    rw [Fintype.card_prod, Fintype.card_fin, Fintype.card_fin] at hcard
    rw [openCount_eq_card width.toNat height.toNat (by omega) (by omega)]
    omega
  · exact htree.existsUnique_path

theorem generateMaze_perfect_witness :
    ((1 : ℤ) ≤ 1) ∧ ((1 : ℤ) ≤ 1) ∧
      ∃ m : CellFun, generateMaze 1 1 (fun _ => 0) = .ok m ∧
        openCount (1 : ℤ).toNat (1 : ℤ).toNat m =
          (1 : ℤ).toNat * (1 : ℤ).toNat - 1 ∧
        ∀ a b : Fin (1 : ℤ).toNat × Fin (1 : ℤ).toNat,
          ∃! p : (mazeGraph (1 : ℤ).toNat (1 : ℤ).toNat m).Walk a b, p.IsPath :=
  ⟨le_refl 1, le_refl 1,
    generateMaze_perfect 1 1 (fun _ => 0) (le_refl 1) (le_refl 1)⟩

end Maze
